import Mathlib

/-!
Verification development for the `typesafe_config` repository.

The repository contains two near-identical implementations of a typed
configuration loader:
  * `src/typesafe_config/typesafe_config.py` — the packaged ("canonical") file;
  * `typesave_config.py` — an older root-level variant.
All definitions below are shallow embeddings of functions of the canonical
packaged file unless a comment says otherwise.  Python dictionaries are
modelled as insertion-ordered association lists; Python values occurring in
configuration fragments are modelled by the inductive type `Value`.

Fixed parameters: every call site in the repository passes the field
separator `"__"` (local `field_seperator = "__"` in `load` and in
`_get_attr_metadata`), so the embedding specialises the separator to `"__"`.
-/

namespace TSC

/-- A Python value as it can occur in a configuration fragment:
strings, integers, booleans and nested dictionaries (insertion-ordered
association lists with string keys). -/
inductive Value where
  | vStr (s : String)
  | vInt (n : Int)
  | vBool (b : Bool)
  | vDict (es : List (String × Value))

/-- Entries of a Python dict: insertion-ordered key/value pairs. -/
abbrev Entries := List (String × Value)

/-- Python `d[k]` read / `k in d`: the value at the first occurrence of `k`. -/
def lookupE : Entries → String → Option Value
  | [], _ => none
  | (k', v) :: rest, k => if k = k' then some v else lookupE rest k

/-- Python `d[k] = v`: replace the value at an existing key in place
(keeping its position, as Python dicts do) or append a fresh key. -/
def setKey : Entries → String → Value → Entries
  | [], k, v => [(k, v)]
  | (k', v') :: rest, k, v =>
    if k = k' then (k, v) :: rest else (k', v') :: setKey rest k v

/-- Python `full_name.split("__")` at the character level: repeatedly cut at
the leftmost occurrence of the two-character separator. -/
def splitDunder : List Char → List (List Char)
  | [] => [[]]
  | [c] => [[c]]
  | c1 :: c2 :: rest =>
    if c1 = '_' ∧ c2 = '_' then
      [] :: splitDunder rest
    else
      match splitDunder (c2 :: rest) with
      | p :: ps => (c1 :: p) :: ps
      | [] => [[c1]]

/-- Joining path segments with the separator `"__"` (the inverse direction
of `splitDunder`; the spec's `flatten`). -/
def joinDunder : List (List Char) → List Char
  | [] => []
  | [s] => s
  | s :: rest => s ++ '_' :: '_' :: joinDunder rest

/-- String-level split on `"__"` (Python `full_name.split(field_seperator)`). -/
def splitFullname (s : String) : List String :=
  (splitDunder s.data).map (fun l => ⟨l⟩)

/-- String-level join with `"__"` (the spec's `flatten(pathSegments)`). -/
def joinSegs (segs : List String) : String :=
  ⟨joinDunder (segs.map String.data)⟩

/-- The dictionary-walking loop of `_add_fullname_as_nested_dict`, acting on
the already-split parts: the last part keys the value; an intermediate part
is entered if it already holds a dict and is overwritten with a fresh dict
otherwise. -/
def addParts : Entries → List String → Value → Entries
  | target, [], _ => target
  | target, [p], v => setKey target p v
  | target, p :: rest, v =>
    let sub : Entries :=
      match lookupE target p with
      | some (.vDict d) => d
      | _ => []
    setKey target p (.vDict (addParts sub rest v))

/-- `ConfigModel._add_fullname_as_nested_dict(target_dict, full_name, value,
field_seperator)` of the canonical file (the separator argument is `"__"` at
every call site and is fixed here). -/
def addFullnameAsNestedDict (target : Entries) (fullName : String) (value : Value) : Entries :=
  addParts target (splitFullname fullName) value

mutual

/-- `ConfigModel._deep_merge(dict1, dict2)`: for each key of `dict2` in
order, merge that single key via `mergeKey`, then continue with the
remaining keys. -/
def deepMerge : Entries → Entries → Entries
  | d1, [] => d1
  | d1, (k, v) :: rest => deepMerge (mergeKey d1 k v) rest
termination_by d1 d2 => sizeOf d2

/-- The body of `_deep_merge`'s loop for one key of `dict2`: recurse when
both sides hold a dict at that key, otherwise `dict2`'s value overwrites
(`dict1[key] = value`). -/
def mergeKey : Entries → String → Value → Entries
  | d1, k, .vDict s2 =>
    match lookupE d1 k with
    | some (.vDict s1) => setKey d1 k (.vDict (deepMerge s1 s2))
    | _ => setKey d1 k (.vDict s2)
  | d1, k, v => setKey d1 k v
termination_by d1 k v => sizeOf v

end

/-- The merge pipeline of `load` (lines 335–341 of the canonical file): the
five fragments folded into an initially empty accumulator, lowest
precedence first. -/
def mergedMapping (data toml json cli env : Entries) : Entries :=
  deepMerge (deepMerge (deepMerge (deepMerge (deepMerge [] data) toml) json) cli) env

/-- Reading a nested mapping at a path of keys. -/
def getPath : Value → List String → Option Value
  | v, [] => some v
  | .vDict es, k :: rest =>
    match lookupE es k with
    | some w => getPath w rest
    | none => none
  | _, _ :: _ => none

/-- Whether a value is a dictionary. -/
def isVDict : Value → Bool
  | .vDict _ => true
  | _ => false

/-- Whether a character list contains the separator `"__"` as a substring. -/
def hasSep : List Char → Bool
  | c1 :: c2 :: rest => (c1 = '_' && c2 = '_') || hasSep (c2 :: rest)
  | _ => false

/-- Whether a character list ends in an underscore. -/
def endsU (l : List Char) : Bool :=
  match l.getLast? with
  | some '_' => true
  | _ => false

/-- Segment lists (at the character level) for which the flatten/unflatten
roundtrip is provable: every segment is free of the separator `"__"`, and
every segment other than the last does not end in `'_'` (otherwise joining
manufactures a separator occurrence at a segment boundary). -/
inductive GoodSegs : List (List Char) → Prop where
  | single (s : List Char) : hasSep s = false → GoodSegs [s]
  | cons (s : List Char) (rest : List (List Char)) : hasSep s = false →
      endsU s = false → GoodSegs rest → GoodSegs (s :: rest)

/-- The same condition for a path of string segments. -/
inductive GoodPath : List String → Prop where
  | single (s : String) : hasSep s.data = false → GoodPath [s]
  | cons (s : String) (rest : List String) : hasSep s.data = false →
      endsU s.data = false → GoodPath rest → GoodPath (s :: rest)

/-- The nested mapping whose successive keys are the given segments, with
the value stored at the terminal key (the claim's expected unflatten
result). -/
def nestChain : List String → Value → Entries
  | [], _ => []
  | [k], v => [(k, v)]
  | k :: rest, v => [(k, .vDict (nestChain rest v))]

/-- The value deep-merge leaves at one key, as a function of the old value
at that key (if any) and the incoming value: two dictionaries merge
recursively, anything else is overwritten by the incoming value. -/
def mergeVal (old : Option Value) (w : Value) : Option Value :=
  match old, w with
  | some (.vDict s1), .vDict s2 => some (.vDict (deepMerge s1 s2))
  | _, _ => some w

/-- Well-formedness of a value as the image of a Python value: every
dictionary nested in it has pairwise-distinct keys (Python dicts cannot
hold duplicate keys, so only such association lists represent fragments). -/
inductive WFV : Value → Prop where
  | str (s : String) : WFV (.vStr s)
  | int (n : Int) : WFV (.vInt n)
  | bool (b : Bool) : WFV (.vBool b)
  | dict (es : List (String × Value)) : (es.map Prod.fst).Nodup →
      (∀ p ∈ es, WFV p.2) → WFV (.vDict es)

/-- A field path is absent from a fragment: walking the path, every key is
either missing or holds a nested dictionary in which the remaining path is
again absent.  This is the sense in which an override is "removed". -/
inductive PathFree : List String → Entries → Prop where
  | noKey (k : String) (rest : List String) (es : Entries) :
      lookupE es k = none → PathFree (k :: rest) es
  | descend (k : String) (rest : List String) (es s : Entries) :
      lookupE es k = some (.vDict s) → PathFree rest s → PathFree (k :: rest) es

/-- Python exceptions that can escape the canonical loaders uncaught. -/
inductive PyErr where
  | tomlDecodeError
  | jsonDecodeError
  | typeError
  | attributeError
deriving DecidableEq

/-- The external file reader for one format: `none` when the path does not
exist, `some (.error ())` when the file exists but its content fails to
decode (tomllib raises `TOMLDecodeError`, json raises `JSONDecodeError`),
`some (.ok d)` when it decodes to the nested mapping `d`. -/
abbrev FileSystem := String → Option (Except Unit Entries)

/-- The shared loop of `_load_toml` (lines 193–210) and `_load_json`
(lines 212–226) of the canonical file: a missing path is skipped with a
log line; a path that decodes REPLACES the whole accumulated fragment
(`toml_config = tomllib.load(f)` is an assignment, not a merge); a decode
failure raises the format's decode exception, which the `except` clause
does not catch (`_load_toml` catches only pydantic's `ValidationError`,
`_load_json` catches only `OSError`, and the decoders raise neither), so
it escapes the function. -/
def loadFiles (err : PyErr) (fs : FileSystem) :
    List String → Entries → Except PyErr Entries
  | [], acc => .ok acc
  | f :: rest, acc =>
    match fs f with
    | none => loadFiles err fs rest acc
    | some (.ok d) => loadFiles err fs rest d
    | some (.error _) => .error err

/-- `ConfigModel._load_toml(filenames)` (canonical lines 193–210). -/
def loadToml (fs : FileSystem) (files : List String) : Except PyErr Entries :=
  loadFiles .tomlDecodeError fs files []

/-- `ConfigModel._load_json(filenames)` (canonical lines 212–226). -/
def loadJson (fs : FileSystem) (files : List String) : Except PyErr Entries :=
  loadFiles .jsonDecodeError fs files []

/-- Python `s.lower()` on the ASCII names used for prefixes and flags. -/
def pyLower (s : String) : String := ⟨s.data.map Char.toLower⟩

/-- Python `s.upper()`. -/
def pyUpper (s : String) : String := ⟨s.data.map Char.toUpper⟩

/-- Python `s[n:]`. -/
def pyDrop (s : String) (n : Nat) : String := ⟨s.data.drop n⟩

/-- The regex test `re.match(r"^(--[^=]+)=(.+)$", arg)` of `_load_cli`:
succeeds iff the argument starts with `--`, has at least one non-`=`
character before the first `=` and at least one character after it;
group 1 is everything before the first `=` (the dashes included), group 2
everything after it.  (Arguments are taken newline-free, so the newline
subtleties of Python's `.` and `$` do not arise.) -/
def matchEqual (arg : String) : Option (String × String) :=
  match arg.data with
  | '-' :: '-' :: rest =>
    let k := rest.takeWhile (fun c => c ≠ '=')
    match rest.dropWhile (fun c => c ≠ '=') with
    | '=' :: v =>
      if k.isEmpty ∨ v.isEmpty then none
      else some (⟨'-' :: '-' :: k⟩, ⟨v⟩)
    | _ => none
  | _ => none

/-- `ConfigModel._load_cli(prefix, sep)` of the canonical file (lines
228–255), with `sys.argv[1:]` passed explicitly as `argv` and the list
returned by `_get_possible_cli_argsname` passed as `names`.  Returns the
fragment together with the `loaded_args` and `unknown_args` lists the
function logs.  Only `--key=value` arguments are recognised; the key is
stripped of `len("--" + prefix.lower())` leading characters and compared
case-insensitively against the permitted names; the first matching name's
original spelling keys the nested write, and the raw value string is
stored verbatim (this file performs no type coercion). -/
def loadCliArgs (argv : List String) (pfx : String) (names : List String) :
    Entries × List String × List String :=
  argv.foldl
    (fun acc arg =>
      match matchEqual arg with
      | some (argKey, argValue) =>
        let keyFullname := pyDrop argKey ("--" ++ pyLower pfx).length
        match names.find? (fun key => pyLower key == pyLower keyFullname) with
        | some fieldName =>
          (addFullnameAsNestedDict acc.1 fieldName (.vStr argValue),
           acc.2.1 ++ [argKey], acc.2.2)
        | none => (acc.1, acc.2.1, acc.2.2 ++ [arg])
      | none => (acc.1, acc.2.1, acc.2.2 ++ [arg]))
    ([], [], [])

/-- `ConfigModel._load_env(prefix, sep)` of the canonical file (lines
258–279), with `os.getenv` passed explicitly.  For each permitted name the
upper-cased prefixed variable is looked up; a set variable's raw string
value is written verbatim via the nested-dict writer (no coercion). -/
def loadEnvVars (getenv : String → Option String) (pfx : String)
    (names : List String) : Entries :=
  names.foldl
    (fun cfg fn =>
      match getenv (pyUpper pfx ++ pyUpper fn) with
      | some v => addFullnameAsNestedDict cfg fn (.vStr v)
      | none => cfg)
    []

/-- Values all of whose leaves are strings — the shape of every fragment
the canonical CLI and environment loaders can produce. -/
inductive AllStrV : Value → Prop where
  | str (s : String) : AllStrV (.vStr s)
  | dict (es : List (String × Value)) : (∀ p ∈ es, AllStrV p.2) →
      AllStrV (.vDict es)

/-- A schema field annotation, as the canonical code distinguishes them: a
plain class carrying `__name__` that is not a pydantic model (str, int,
float, bool, datetime, …), a pydantic model class, or a parameterized
generic alias `list[T]`. -/
inductive PType where
  | prim (name : String)
  | modelRef (name : String)
  | listOf (elem : PType)
deriving DecidableEq

/-- One schema field (pydantic `FieldInfo`): annotation, optional
description, optional default. -/
structure FieldDef where
  ann : PType
  descr : Option String
  dflt : Option Value

/-- A schema environment: pydantic model classes by name, each a mapping
from field name to field definition.  Class identity in the Python code
(the guard `list_type != model`) is modelled as name equality; distinct
classes have distinct names. -/
abbrev Env := List (String × List (String × FieldDef))

/-- Resolving a model class by name. -/
def lookupModel (env : Env) (m : String) : Option (List (String × FieldDef)) :=
  match env.find? (fun e => e.1 == m) with
  | some e => some e.2
  | none => none

/-- The `type_name` string computed at canonical lines 88–103: `__name__`
for plain and model classes, `list[...]` for list aliases (the element
printed by its `__name__` when it has one, by `str(...)` otherwise). -/
def typeNameOf : PType → String
  | .prim n => n
  | .modelRef n => n
  | .listOf (.prim n) => "list[" ++ n ++ "]"
  | .listOf (.modelRef n) => "list[" ++ n ++ "]"
  | .listOf e => "list[" ++ typeNameOf e ++ "]"

/-- Python `str(annotation)` as it enters the description text at line 82
(module qualification of class names is not modelled; no claim depends on
this string). -/
def pyStrAnn : PType → String
  | .prim n => "<class '" ++ n ++ "'>"
  | .modelRef n => "<class '" ++ n ++ "'>"
  | .listOf e => typeNameOf (.listOf e)

/-- The description text `str(info.description) + " " + str(f_type)` of
line 82 (`str(None)` is the string `"None"`). -/
def descrText (d : Option String) (t : PType) : String :=
  (match d with | some s => s | none => "None") ++ " " ++ pyStrAnn t

/-- Python string `<`: lexicographic comparison by code point. -/
def strLtChars : List Char → List Char → Bool
  | [], [] => false
  | [], _ :: _ => true
  | _ :: _, [] => false
  | a :: as, b :: bs =>
    if a < b then true else if b < a then false else strLtChars as bs

/-- Python string `<=` (a total lexicographic order): `a <= b ↔ ¬ b < a`. -/
def pyStrLe (a b : String) : Bool := ! strLtChars b.data a.data

/-- Insertion into a name-sorted field list. -/
def insertByName (x : String × FieldDef) :
    List (String × FieldDef) → List (String × FieldDef)
  | [] => [x]
  | y :: ys => if pyStrLe x.1 y.1 then x :: y :: ys else y :: insertByName x ys

/-- Python `sorted(model.model_fields.items())`: the field items sorted by
field name (string comparison by code point). -/
def sortFields (fs : List (String × FieldDef)) : List (String × FieldDef) :=
  fs.foldr insertByName []

/-- `ConfigAttrMetadata` (canonical lines 25–33). -/
structure AttrMeta where
  model : String
  name : String
  fullname : String
  typeName : String
  rawType : PType
  description : String
  dflt : Option Value

/-- The metadata record built for one field (canonical lines 78–115):
`fullname` extends the accumulated path with the separator unless the path
is empty (`f"{_path}{field_seperator}{f_name}" if _path else f_name`);
`default` is the field's default (`None` maps to `None`). -/
def mkMeta (mname fname path : String) (fd : FieldDef) : AttrMeta :=
  { model := mname
    name := fname
    fullname := if path = "" then fname else path ++ "__" ++ fname
    typeName := typeNameOf fd.ann
    rawType := fd.ann
    description := descrText fd.descr fd.ann
    dflt := fd.dflt }

/-- One pass of `_get_attr_metadata`'s field loop, parameterized by the
recursive call (`walkChild m path` walks nested model `m` at accumulated
path `path`): emit the field's descriptor; if the annotation is a pydantic
model (`hasattr(f_type, "model_fields")`), recurse into it; if it is
`list[Model]` and the element type is NOT the containing model itself
(the guard `list_type != model`), recurse into the element type once. -/
def walkFields (walkChild : String → String → Option (List AttrMeta))
    (mname path : String) : List (String × FieldDef) → Option (List AttrMeta)
  | [] => some []
  | (fname, fd) :: rest => do
    let fullname := if path = "" then fname else path ++ "__" ++ fname
    let sub1 ←
      match fd.ann with
      | .modelRef m => walkChild m fullname
      | _ => some []
    let sub2 ←
      match fd.ann with
      | .listOf (.modelRef m) =>
        if m = mname then some [] else walkChild m fullname
      | _ => some []
    let restMetas ← walkFields walkChild mname path rest
    some (mkMeta mname fname path fd :: sub1 ++ sub2 ++ restMetas)

/-- `ConfigModel._get_attr_metadata(model, _indent, _path)` (canonical
lines 71–124) with explicit recursion fuel: `walkF (n+1)` walks one model's
name-sorted fields, recursing into nested models with fuel `n`.  `none`
means the depth bound was hit — the Python recursion would still be
descending at that depth, so "terminates" means: some finite fuel returns
`some`.  The `_indent` parameter only feeds logging and is omitted. -/
def walkF : Nat → Env → String → String → Option (List AttrMeta)
  | 0, _, _, _ => none
  | n + 1, env, mname, path =>
    walkFields (fun m p => walkF n env m p) mname path
      (sortFields ((lookupModel env mname).getD []))

/-- `ConfigModel.get_metadata()` (canonical lines 292–297). -/
def getMetadataF (n : Nat) (env : Env) (root : String) :
    Option (List AttrMeta) :=
  walkF n env root ""

/-- Termination of the schema walk on a given schema: some finite recursion
depth suffices. -/
def WalkTerminates (env : Env) (root : String) : Prop :=
  ∃ n, (walkF n env root "").isSome

/-- `ConfigModel._get_possible_cli_argsname()` (canonical lines 126–137):
keeps the fullnames whose raw annotation is neither a pydantic model class
nor of list/dict origin.  For a parameterized generic annotation such as
`list[str]`, `issubclass(t, BaseModel)` raises `TypeError` — its first
argument is not a class — and the short-circuit `or` evaluates `issubclass`
first, so the error is raised before `get_origin` is consulted and nothing
catches it. -/
def possibleCliArgsnames : List AttrMeta → Except PyErr (List String)
  | [] => .ok []
  | m :: rest =>
    match m.rawType with
    | .listOf _ => .error .typeError
    | .modelRef _ => possibleCliArgsnames rest
    | .prim _ =>
      match possibleCliArgsnames rest with
      | .error e => .error e
      | .ok r => .ok (m.fullname :: r)

/-- Outcome of one `load` call: an uncaught Python exception escaping
`load`, or a normal return of either a validated instance (represented by
the merged mapping pydantic validated) or Python's `None`. -/
inductive LoadResult where
  | raised (e : PyErr)
  | returned (c : Option Entries)

/-- The catalogue-derived permitted-name computation performed inside
`_load_cli`/`_load_env` via `get_metadata`, bounded by the walk fuel. -/
def namesOf (fuel : Nat) (env : Env) (root : String) :
    Option (Except PyErr (List String)) :=
  (walkF fuel env root "").map possibleCliArgsnames

/-- `ConfigModel.load(...)` (canonical lines 299–356) over explicit inputs
mirroring the Python signature and its collaborators: `fsT`/`fsJ` deliver
TOML/JSON file contents, empty `tomlFiles`/`jsonFiles` skip the source
(Python's `if toml_files else {}` truthiness test), `argv` is
`sys.argv[1:]`, `getenv` is `os.getenv`, `data` is the caller mapping whose
Python default is `None`, and `validates` is the external pydantic
construction — `false` means it raises `ValidationError`, which the `try`
catches, making `load` return `None`.  `fuel` bounds the schema-walk
recursion; overall `none` means the walk does not finish.  Uncaught
exceptions surface as `.raised`: the decode errors escaping
`_load_toml`/`_load_json`, the `TypeError` escaping
`_get_possible_cli_argsname`, and the `AttributeError` from
`_deep_merge(merged_config, None)` when `data` is left at its default —
`except ValidationError` catches none of these.  (The freeze step is
modelled separately by `setFrozenF`.) -/
def loadModel (fuel : Nat) (env : Env) (root : String)
    (fsT fsJ : FileSystem) (tomlFiles jsonFiles : List String)
    (loadCli loadEnv : Bool) (argv : List String)
    (getenv : String → Option String) (data : Option Entries)
    (validates : Entries → Bool) (pfx : String) : Option LoadResult :=
  match (if tomlFiles.isEmpty then Except.ok [] else loadToml fsT tomlFiles) with
  | .error e => some (.raised e)
  | .ok toml =>
    match (if jsonFiles.isEmpty then Except.ok [] else loadJson fsJ jsonFiles) with
    | .error e => some (.raised e)
    | .ok json =>
      match (if loadCli then namesOf fuel env root else some (.ok [])) with
      | none => none
      | some (.error e) => some (.raised e)
      | some (.ok cliNames) =>
        let cli := if loadCli then (loadCliArgs argv pfx cliNames).1 else []
        match (if loadEnv then namesOf fuel env root else some (.ok [])) with
        | none => none
        | some (.error e) => some (.raised e)
        | some (.ok envNames) =>
          let envFrag := if loadEnv then loadEnvVars getenv pfx envNames else []
          match data with
          | none => some (.raised .attributeError)
          | some d =>
            let merged := mergedMapping d toml json cli envFrag
            if validates merged then some (.returned (some merged))
            else some (.returned none)

/-- The field list of a model (empty when the name is unbound, matching
`(lookupModel env m).getD []` as the walk reads it). -/
def fieldsOf (env : Env) (m : String) : List (String × FieldDef) :=
  (lookupModel env m).getD []

/-- The references along which `_get_attr_metadata` and `_set_frozen`
recurse from model `a` into model `b`: a field whose annotation is model
`b` itself, or a field `list[b]` whose element type is not the containing
model (those the guard `list_type != model` skips). -/
def EdgeR (env : Env) (a b : String) : Prop :=
  ∃ fname fd, (fname, fd) ∈ fieldsOf env a ∧
    (fd.ann = .modelRef b ∨ (fd.ann = .listOf (.modelRef b) ∧ b ≠ a))

/-- Two pydantic models that reference each other through list element
types: `class A: xs: list[B]` and `class B: ys: list[A]`. -/
def envMutual : Env :=
  [("A", [("xs", ⟨.listOf (.modelRef "B"), none, none⟩)]),
   ("B", [("ys", ⟨.listOf (.modelRef "A"), none, none⟩)])]

/-- A directly self-referential schema: `class A: name: str; xs: list[A]`
(the shape the guard is designed for). -/
def envSelf : Env :=
  [("A", [("name", ⟨.prim "str", none, none⟩),
          ("xs", ⟨.listOf (.modelRef "A"), none, none⟩)])]

/-- A two-level schema: `class P: child: C` and `class C: x: str`. -/
def envParentChild : Env :=
  [("P", [("child", ⟨.modelRef "C", none, none⟩)]),
   ("C", [("x", ⟨.prim "str", none, none⟩)])]

/-- Per-model-class "frozen" state: pydantic's `model_config["frozen"]`
flag is type-level, one per model class, shared by all instances. -/
abbrev FrozenSt := String → Bool

/-- `model.model_config = {"frozen": True}` for one class (canonical line
191). -/
def setFlag (st : FrozenSt) (m : String) : FrozenSt :=
  fun x => if x = m then true else st x

/-- The field loop of `_set_frozen` (canonical lines 179–188),
parameterized by the recursive call: recurse into nested model fields, and
into `list[Model]` element types other than the container itself (the same
guard as the walk). -/
def setFrozenFields (child : String → FrozenSt → Option FrozenSt)
    (mname : String) : List (String × FieldDef) → FrozenSt → Option FrozenSt
  | [], st => some st
  | (_, fd) :: rest, st => do
    let st1 ←
      match fd.ann with
      | .modelRef m => child m st
      | _ => some st
    let st2 ←
      match fd.ann with
      | .listOf (.modelRef m) => if m = mname then some st1 else child m st1
      | _ => some st1
    setFrozenFields child mname rest st2

/-- `ConfigModel._set_frozen(model)` (canonical lines 173–191) with
recursion fuel: walk the sorted fields recursing into reachable model
classes, then mark this class frozen.  `none` means the recursion depth
was exhausted — the Python call would still be descending. -/
def setFrozenF : Nat → Env → String → FrozenSt → Option FrozenSt
  | 0, _, _, _ => none
  | n + 1, env, mname, st => do
    let st' ← setFrozenFields (fun m s => setFrozenF n env m s) mname
      (sortFields (fieldsOf env mname)) st
    some (setFlag st' mname)

/-- Outcome of assigning a field on an instance. -/
inductive AssignOutcome where
  | frozenError
  | assigned
deriving DecidableEq

/-- Assignment to a field of an instance of class `m` under frozen state
`st`: pydantic raises a `frozen_instance` `ValidationError` when the
class's config is frozen (a distinguishable immutability error), and the
assignment succeeds otherwise. -/
def assignField (st : FrozenSt) (m : String) : AssignOutcome :=
  if st m then .frozenError else .assigned

/-- Model classes reachable from `root` along the recursion edges (`root`
included): nested objects at any depth and list-of-object element types. -/
inductive Reaches (env : Env) : String → String → Prop where
  | refl (m : String) : Reaches env m m
  | step (a b c : String) : EdgeR env a b → Reaches env b c → Reaches env a c

/-- The demo-like schema: `App { user: User, prompts: list[Prompt],
port: int }`, `User { PassWord: str }`, `Prompt { name: str }`. -/
def envApp : Env :=
  [("App", [("user", ⟨.modelRef "User", none, none⟩),
            ("prompts", ⟨.listOf (.modelRef "Prompt"), none, none⟩),
            ("port", ⟨.prim "int", none, none⟩)]),
   ("User", [("PassWord", ⟨.prim "str", none, none⟩)]),
   ("Prompt", [("name", ⟨.prim "str", none, none⟩)])]

/-- The frozen state after a readonly load of `envApp` (depth 2). -/
def stAppFrozen : FrozenSt :=
  (setFrozenF 2 envApp "App" (fun _ => false)).getD (fun _ => false)

/-- A field name that cannot make flattened paths collide: non-empty, free
of the separator `"__"`, and not ending in `'_'` (every Python identifier
without double underscores and without a trailing underscore qualifies). -/
def goodFieldName (s : String) : Bool :=
  !s.data.isEmpty && !hasSep s.data && !endsU s.data

/-- Pairwise-distinct keys of a field list (Python dicts guarantee this). -/
def nodupKeysF : List (String × FieldDef) → Bool
  | [] => true
  | (k, _) :: rest => !(rest.any (fun e => e.1 == k)) && nodupKeysF rest

/-- Schema well-formedness for the full-path uniqueness statement: every
model's field names are pairwise distinct and every field name is a
`goodFieldName`. -/
def wfEnv (env : Env) : Bool :=
  env.all (fun me => nodupKeysF me.2 && me.2.all (fun f => goodFieldName f.1))

/-- A schema on which full paths collide: model `M` has a field `a` of
nested model type `N` (which has a field `b`) AND a field literally named
`a__b` — a legal Python identifier. -/
def envC9 : Env :=
  [("M", [("a", ⟨.modelRef "N", none, none⟩),
          ("a__b", ⟨.prim "str", none, none⟩)]),
   ("N", [("b", ⟨.prim "str", none, none⟩)])]

/-- The catalogue the walk returns on `envApp` (depth 2 suffices). -/
def c9CatApp : List AttrMeta :=
  (walkF 2 envApp "App" "").getD []

end TSC

namespace TSC

theorem splitDunder_ne_nil (l : List Char) : splitDunder l ≠ [] := by
  induction l using splitDunder.induct with
  | case1 => simp [splitDunder]
  | case2 c => simp [splitDunder]
  | case3 c1 c2 rest h ih => simp [splitDunder, h]
  | case4 c1 c2 rest h p ps hps ih => simp [splitDunder, h, hps]
  | case5 c1 c2 rest h hnil ih => exact absurd hnil ih

theorem hasSep_tail {c1 c2 : Char} {rest : List Char}
    (h : hasSep (c1 :: c2 :: rest) = false) : hasSep (c2 :: rest) = false := by
  cases rest with
  | nil => rfl
  | cons c3 r3 =>
    simp [hasSep] at h ⊢
    exact ⟨h.2.1, h.2.2⟩

theorem splitDunder_sepFree (l : List Char) (h : hasSep l = false) :
    splitDunder l = [l] := by
  induction l using splitDunder.induct with
  | case1 => rfl
  | case2 c => rfl
  | case3 c1 c2 rest hc ih =>
    simp [hasSep, hc.1, hc.2] at h
  | case4 c1 c2 rest hc p ps hps ih =>
    rw [splitDunder.eq_3, if_neg hc, ih (hasSep_tail h)]
  | case5 c1 c2 rest hc hnil ih =>
    exact absurd hnil (splitDunder_ne_nil _)

theorem splitDunder_append_sep (s t : List Char) (hs : hasSep s = false)
    (hu : endsU s = false) :
    splitDunder (s ++ '_' :: '_' :: t) = s :: splitDunder t := by
  induction s using splitDunder.induct with
  | case1 =>
    rw [List.nil_append, splitDunder.eq_3]
    simp
  | case2 c =>
    have hc : ¬ (c = '_' ∧ ('_' : Char) = '_') := by
      intro hh
      rw [hh.1] at hu
      exact absurd hu (by decide)
    rw [List.singleton_append, splitDunder.eq_3, if_neg hc]
    have : splitDunder ('_' :: '_' :: t) = [] :: splitDunder t := by
      rw [splitDunder.eq_3]
      simp
    rw [this]
  | case3 c1 c2 rest hc ih =>
    simp [hasSep, hc.1, hc.2] at hs
  | case4 c1 c2 rest hc p ps hps ih =>
    have hu2 : endsU (c2 :: rest) = false := by
      simpa [endsU, List.getLast?] using hu
    have hrec := ih (hasSep_tail hs) hu2
    simp only [List.cons_append] at hrec ⊢
    rw [splitDunder.eq_3, if_neg hc, hrec]
  | case5 c1 c2 rest hc hnil ih =>
    exact absurd hnil (splitDunder_ne_nil _)

theorem splitDunder_joinDunder (ls : List (List Char)) (h : GoodSegs ls) :
    splitDunder (joinDunder ls) = ls := by
  induction h with
  | single s hs =>
    simpa [joinDunder] using splitDunder_sepFree s hs
  | cons s rest hs hu hrest ih =>
    have hne : rest ≠ [] := by cases hrest <;> simp
    have hjoin : joinDunder (s :: rest) = s ++ '_' :: '_' :: joinDunder rest := by
      cases rest with
      | nil => exact absurd rfl hne
      | cons a b => rfl
    rw [hjoin, splitDunder_append_sep s _ hs hu, ih]

theorem goodSegs_of_goodPath (p : List String) (h : GoodPath p) :
    GoodSegs (p.map String.data) := by
  induction h with
  | single s hs => exact GoodSegs.single s.data hs
  | cons s rest hs hu hrest ih => exact GoodSegs.cons s.data _ hs hu ih

theorem splitFullname_joinSegs (p : List String) (h : GoodPath p) :
    splitFullname (joinSegs p) = p := by
  unfold splitFullname joinSegs
  rw [show (⟨joinDunder (p.map String.data)⟩ : String).data
        = joinDunder (p.map String.data) from rfl]
  rw [splitDunder_joinDunder _ (goodSegs_of_goodPath p h)]
  rw [List.map_map]
  exact List.map_id'' (fun s => rfl) p

theorem addParts_empty_nestChain (p : List String) (v : Value) (h : p ≠ []) :
    addParts [] p v = nestChain p v := by
  induction p with
  | nil => exact absurd rfl h
  | cons k rest ih =>
    cases rest with
    | nil => rfl
    | cons k2 r2 =>
      show setKey [] k (.vDict (addParts [] (k2 :: r2) v)) = _
      rw [ih (by simp)]
      rfl

/-- C3 counterexample: the path `["a_", "b"]` has no segment containing the
separator `"__"`, yet unflattening its flattened key `"a___b"` yields
`{"a": {"_b": v}}` rather than the nested chain `{"a_": {"b": v}}` the claim
predicts — Python's leftmost split cuts the manufactured separator occurrence
one character early. -/
theorem c3_roundtrip_counterexample :
    hasSep "a_".data = false ∧ hasSep "b".data = false ∧
    joinSegs ["a_", "b"] = "a___b" ∧
    addFullnameAsNestedDict [] (joinSegs ["a_", "b"]) (.vStr "x")
      = [("a", .vDict [("_b", .vStr "x")])] ∧
    addFullnameAsNestedDict [] (joinSegs ["a_", "b"]) (.vStr "x")
      ≠ nestChain ["a_", "b"] (.vStr "x") := by
  refine ⟨rfl, rfl, rfl, rfl, ?_⟩
  intro h
  rw [show addFullnameAsNestedDict [] (joinSegs ["a_", "b"]) (.vStr "x")
        = [("a", .vDict [("_b", .vStr "x")])] from rfl] at h
  simp [nestChain] at h

/-- C3 (amended): for every non-empty list of path segments in which no
segment contains the separator `"__"` **and no segment other than the last
ends in `'_'`**, unflattening the flattened key with
`_add_fullname_as_nested_dict` into an empty target produces exactly the
nested mapping whose successive keys are the segments, with the value at the
terminal key. -/
theorem c3_unflatten_flatten (p : List String) (v : Value) (h : GoodPath p) :
    addFullnameAsNestedDict [] (joinSegs p) v = nestChain p v := by
  have hne : p ≠ [] := by cases h <;> simp
  rw [addFullnameAsNestedDict, splitFullname_joinSegs p h,
    addParts_empty_nestChain p v hne]

/-- C3 witness: the amended roundtrip at the concrete path
`["user", "password"]`. -/
theorem c3_unflatten_flatten_witness :
    addFullnameAsNestedDict [] (joinSegs ["user", "password"]) (.vStr "s")
      = nestChain ["user", "password"] (.vStr "s") :=
  c3_unflatten_flatten ["user", "password"] (.vStr "s")
    (GoodPath.cons _ _ rfl rfl (GoodPath.single _ rfl))

theorem lookupE_setKey_self (es : Entries) (k : String) (v : Value) :
    lookupE (setKey es k v) k = some v := by
  induction es with
  | nil => simp [setKey, lookupE]
  | cons e rest ih =>
    obtain ⟨k', v'⟩ := e
    by_cases h : k = k'
    · simp [setKey, lookupE, h]
    · simp [setKey, lookupE, h, ih]

theorem lookupE_setKey_other (es : Entries) (k k' : String) (v : Value)
    (h : k ≠ k') : lookupE (setKey es k' v) k = lookupE es k := by
  induction es with
  | nil => simp [setKey, lookupE, h]
  | cons e rest ih =>
    obtain ⟨k'', v''⟩ := e
    by_cases h2 : k' = k''
    · subst h2
      simp [setKey, lookupE, h]
    · simp [setKey, lookupE, h2, ih]

theorem mergeKey_str (d1 : Entries) (k s : String) :
    mergeKey d1 k (.vStr s) = setKey d1 k (.vStr s) := by
  simp [mergeKey]

theorem mergeKey_int (d1 : Entries) (k : String) (n : Int) :
    mergeKey d1 k (.vInt n) = setKey d1 k (.vInt n) := by
  simp [mergeKey]

theorem mergeKey_bool (d1 : Entries) (k : String) (b : Bool) :
    mergeKey d1 k (.vBool b) = setKey d1 k (.vBool b) := by
  simp [mergeKey]

/-- The value `mergeKey` leaves at the merged key. -/
theorem lookupE_mergeKey_self (d1 : Entries) (k : String) (v : Value) :
    lookupE (mergeKey d1 k v) k = mergeVal (lookupE d1 k) v := by
  cases v with
  | vDict s2 =>
    rw [mergeKey]
    cases h : lookupE d1 k with
    | none => simp [lookupE_setKey_self, mergeVal]
    | some w =>
      cases w <;> simp [lookupE_setKey_self, mergeVal]
  | vStr s =>
    rw [mergeKey_str, lookupE_setKey_self]
    cases h : lookupE d1 k with
    | none => simp [mergeVal]
    | some w => cases w <;> simp [mergeVal]
  | vInt n =>
    rw [mergeKey_int, lookupE_setKey_self]
    cases h : lookupE d1 k with
    | none => simp [mergeVal]
    | some w => cases w <;> simp [mergeVal]
  | vBool b =>
    rw [mergeKey_bool, lookupE_setKey_self]
    cases h : lookupE d1 k with
    | none => simp [mergeVal]
    | some w => cases w <;> simp [mergeVal]

theorem lookupE_mergeKey_other (d1 : Entries) (k k' : String) (v : Value)
    (h : k ≠ k') : lookupE (mergeKey d1 k' v) k = lookupE d1 k := by
  cases v with
  | vDict s2 =>
    rw [mergeKey]
    cases hl : lookupE d1 k' with
    | none => simp [lookupE_setKey_other _ _ _ _ h]
    | some w => cases w <;> simp [lookupE_setKey_other _ _ _ _ h]
  | vStr s => rw [mergeKey_str]; exact lookupE_setKey_other _ _ _ _ h
  | vInt n => rw [mergeKey_int]; exact lookupE_setKey_other _ _ _ _ h
  | vBool b => rw [mergeKey_bool]; exact lookupE_setKey_other _ _ _ _ h

theorem lookupE_none_of_not_mem_keys (es : Entries) (k : String)
    (h : k ∉ es.map Prod.fst) : lookupE es k = none := by
  induction es with
  | nil => rfl
  | cons e rest ih =>
    obtain ⟨k', v'⟩ := e
    rw [List.map_cons] at h
    simp only [List.mem_cons, not_or] at h
    rw [lookupE, if_neg h.1, ih h.2]

/-- Merging does not touch a key absent from the second dictionary. -/
theorem lookupE_deepMerge_of_none (d2 d1 : Entries) (k : String)
    (h : lookupE d2 k = none) :
    lookupE (deepMerge d1 d2) k = lookupE d1 k := by
  induction d2 generalizing d1 with
  | nil => rw [deepMerge]
  | cons e rest ih =>
    obtain ⟨k', v'⟩ := e
    have hk : ¬ k = k' := by
      intro hh
      simp [lookupE, hh] at h
    simp only [lookupE, if_neg hk] at h
    rw [deepMerge]
    rw [ih _ h, lookupE_mergeKey_other _ _ _ _ hk]

/-- The value deep-merge leaves at a key the second dictionary supplies
(for duplicate-free second dictionaries). -/
theorem lookupE_deepMerge_of_some (d2 d1 : Entries) (k : String) (w : Value)
    (hnd : (d2.map Prod.fst).Nodup) (h : lookupE d2 k = some w) :
    lookupE (deepMerge d1 d2) k = mergeVal (lookupE d1 k) w := by
  induction d2 generalizing d1 with
  | nil => simp [lookupE] at h
  | cons e rest ih =>
    obtain ⟨k', v'⟩ := e
    simp at hnd
    by_cases hk : k = k'
    · subst hk
      rw [lookupE, if_pos rfl] at h
      injection h with h
      subst h
      have hrest : lookupE rest k = none :=
        lookupE_none_of_not_mem_keys _ _ (by simpa using hnd.1)
      rw [deepMerge, lookupE_deepMerge_of_none _ _ _ hrest,
        lookupE_mergeKey_self]
    · simp only [lookupE, if_neg hk] at h
      rw [deepMerge, ih _ hnd.2 h, lookupE_mergeKey_other _ _ _ _ hk]

theorem mergeVal_nondict (old : Option Value) (w : Value)
    (hw : isVDict w = false) : mergeVal old w = some w := by
  cases w with
  | vDict s => simp [isVDict] at hw
  | vStr s => cases old with
    | none => rfl
    | some u => cases u <;> rfl
  | vInt n => cases old with
    | none => rfl
    | some u => cases u <;> rfl
  | vBool b => cases old with
    | none => rfl
    | some u => cases u <;> rfl

theorem lookupE_mem (es : Entries) (k : String) (w : Value)
    (h : lookupE es k = some w) : (k, w) ∈ es := by
  induction es with
  | nil => simp [lookupE] at h
  | cons e rest ih =>
    obtain ⟨k', v'⟩ := e
    rw [lookupE] at h
    by_cases hk : k = k'
    · rw [if_pos hk] at h
      injection h with h
      subst h
      subst hk
      exact List.mem_cons_self _ _
    · rw [if_neg hk] at h
      exact List.mem_cons_of_mem _ (ih h)

theorem WFV_of_lookup {es : Entries} {k : String} {w : Value}
    (h : WFV (.vDict es)) (hl : lookupE es k = some w) : WFV w := by
  cases h with
  | dict es hnd hmem => exact hmem _ (lookupE_mem es k w hl)

theorem WFV_nodup {es : Entries} (h : WFV (.vDict es)) :
    (es.map Prod.fst).Nodup := by
  cases h with
  | dict es hnd hmem => exact hnd

/-- A non-dictionary value present in the second fragment at a path
survives a deep merge unchanged: the second dictionary has precedence. -/
theorem getPath_deepMerge_right (P : List String) (d1 d2 : Entries) (v : Value)
    (hwf : WFV (.vDict d2)) (h : getPath (.vDict d2) P = some v)
    (hv : isVDict v = false) :
    getPath (.vDict (deepMerge d1 d2)) P = some v := by
  induction P generalizing d1 d2 with
  | nil =>
    rw [getPath] at h
    injection h with h
    rw [← h] at hv
    simp [isVDict] at hv
  | cons k rest ih =>
    rw [getPath] at h
    cases hl : lookupE d2 k with
    | none => rw [hl] at h; simp at h
    | some w =>
      rw [hl] at h
      rw [getPath, lookupE_deepMerge_of_some d2 d1 k w (WFV_nodup hwf) hl]
      cases w with
      | vDict s2 =>
        cases hd1 : lookupE d1 k with
        | none => exact h
        | some w1 =>
          cases w1 with
          | vDict s1 =>
            show getPath (.vDict (deepMerge s1 s2)) rest = some v
            exact ih s1 s2 (WFV_of_lookup hwf hl) h
          | vStr s => exact h
          | vInt n => exact h
          | vBool b => exact h
      | vStr s =>
        rw [mergeVal_nondict _ _ (by rfl)]
        exact h
      | vInt n =>
        rw [mergeVal_nondict _ _ (by rfl)]
        exact h
      | vBool b =>
        rw [mergeVal_nondict _ _ (by rfl)]
        exact h

/-- An absent path reads as `none`. -/
theorem getPath_pathFree (P : List String) (es : Entries) (h : PathFree P es) :
    getPath (.vDict es) P = none := by
  induction h with
  | noKey k rest es hl => rw [getPath, hl]
  | descend k rest es s hl hrest ih => rw [getPath, hl]; exact ih

theorem pathFree_ne_nil {P : List String} {es : Entries}
    (h : PathFree P es) : P ≠ [] := by
  cases h <;> simp

theorem getPath_nondict (v : Value) (hv : isVDict v = false) (k : String)
    (rs : List String) : getPath v (k :: rs) = none := by
  cases v with
  | vDict es => simp [isVDict] at hv
  | vStr s => rfl
  | vInt n => rfl
  | vBool b => rfl

/-- A path absent from the second fragment reads from the accumulator after
a deep merge: merging cannot disturb paths the second fragment does not
touch. -/
theorem getPath_deepMerge_left (P : List String) (d2 : Entries)
    (h : PathFree P d2) :
    ∀ d1 : Entries, WFV (.vDict d2) →
      getPath (.vDict (deepMerge d1 d2)) P = getPath (.vDict d1) P := by
  induction h with
  | noKey k rest es hl =>
    intro d1 _
    rw [getPath, getPath, lookupE_deepMerge_of_none _ _ _ hl]
  | descend k rest es s hl hrest ih =>
    intro d1 hwf
    rw [getPath, getPath, lookupE_deepMerge_of_some _ _ _ _ (WFV_nodup hwf) hl]
    have hwfs : WFV (.vDict s) := WFV_of_lookup hwf hl
    cases hd1 : lookupE d1 k with
    | none =>
      show getPath (.vDict s) rest = none
      exact getPath_pathFree rest s hrest
    | some u =>
      cases u with
      | vDict s1 =>
        show getPath (.vDict (deepMerge s1 s)) rest = getPath (.vDict s1) rest
        exact ih s1 hwfs
      | vStr a =>
        show getPath (.vDict s) rest = getPath (.vStr a) rest
        obtain ⟨r1, rs, rfl⟩ : ∃ r1 rs, rest = r1 :: rs := by
          cases rest with
          | nil => exact absurd rfl (pathFree_ne_nil hrest)
          | cons r1 rs => exact ⟨r1, rs, rfl⟩
        rw [getPath_pathFree _ _ hrest, getPath_nondict (.vStr a) rfl]
      | vInt a =>
        show getPath (.vDict s) rest = getPath (.vInt a) rest
        obtain ⟨r1, rs, rfl⟩ : ∃ r1 rs, rest = r1 :: rs := by
          cases rest with
          | nil => exact absurd rfl (pathFree_ne_nil hrest)
          | cons r1 rs => exact ⟨r1, rs, rfl⟩
        rw [getPath_pathFree _ _ hrest, getPath_nondict (.vInt a) rfl]
      | vBool a =>
        show getPath (.vDict s) rest = getPath (.vBool a) rest
        obtain ⟨r1, rs, rfl⟩ : ∃ r1 rs, rest = r1 :: rs := by
          cases rest with
          | nil => exact absurd rfl (pathFree_ne_nil hrest)
          | cons r1 rs => exact ⟨r1, rs, rfl⟩
        rw [getPath_pathFree _ _ hrest, getPath_nondict (.vBool a) rfl]

/-- C1: in the merged mapping handed to the validator, a conflicting field
takes its value from the highest-precedence source, precedence low→high
being embedded data, TOML fragment, JSON fragment, CLI fragment,
environment fragment: the environment value wins; with the environment
override removed the CLI value wins; with the CLI override also removed the
JSON (later-file-format) value wins; then the TOML value; then the embedded
data value. -/
theorem c1_precedence (P : List String) (data toml json cli env : Entries)
    (v : Value) (hv : isVDict v = false)
    (wdata : WFV (.vDict data)) (wtoml : WFV (.vDict toml))
    (wjson : WFV (.vDict json)) (wcli : WFV (.vDict cli))
    (wenv : WFV (.vDict env)) :
    (getPath (.vDict env) P = some v →
      getPath (.vDict (mergedMapping data toml json cli env)) P = some v) ∧
    (PathFree P env → getPath (.vDict cli) P = some v →
      getPath (.vDict (mergedMapping data toml json cli env)) P = some v) ∧
    (PathFree P env → PathFree P cli → getPath (.vDict json) P = some v →
      getPath (.vDict (mergedMapping data toml json cli env)) P = some v) ∧
    (PathFree P env → PathFree P cli → PathFree P json →
      getPath (.vDict toml) P = some v →
      getPath (.vDict (mergedMapping data toml json cli env)) P = some v) ∧
    (PathFree P env → PathFree P cli → PathFree P json → PathFree P toml →
      getPath (.vDict data) P = some v →
      getPath (.vDict (mergedMapping data toml json cli env)) P = some v) := by
  unfold mergedMapping
  refine ⟨?_, ?_, ?_, ?_, ?_⟩
  · intro henv
    exact getPath_deepMerge_right P _ env v wenv henv hv
  · intro fenv hcli
    rw [getPath_deepMerge_left P env fenv _ wenv]
    exact getPath_deepMerge_right P _ cli v wcli hcli hv
  · intro fenv fcli hjson
    rw [getPath_deepMerge_left P env fenv _ wenv,
      getPath_deepMerge_left P cli fcli _ wcli]
    exact getPath_deepMerge_right P _ json v wjson hjson hv
  · intro fenv fcli fjson htoml
    rw [getPath_deepMerge_left P env fenv _ wenv,
      getPath_deepMerge_left P cli fcli _ wcli,
      getPath_deepMerge_left P json fjson _ wjson]
    exact getPath_deepMerge_right P _ toml v wtoml htoml hv
  · intro fenv fcli fjson ftoml hdata
    rw [getPath_deepMerge_left P env fenv _ wenv,
      getPath_deepMerge_left P cli fcli _ wcli,
      getPath_deepMerge_left P json fjson _ wjson,
      getPath_deepMerge_left P toml ftoml _ wtoml]
    exact getPath_deepMerge_right P _ data v wdata hdata hv

theorem WFV_singleton (k : String) (v : Value) (hv : WFV v) :
    WFV (.vDict [(k, v)]) := by
  refine WFV.dict _ (by simp) ?_
  intro p hp
  simp at hp
  rw [hp]
  exact hv

theorem WFV_nil : WFV (.vDict ([] : Entries)) := by
  refine WFV.dict [] (by simp) ?_
  intro p hp
  exact absurd hp (List.not_mem_nil p)

/-- C1 witness: with every source supplying a scalar at `port`, the merged
mapping holds the environment value; removing the environment override
yields the CLI value; removing that yields the JSON value, then the TOML
value, then the embedded data value. -/
theorem c1_precedence_witness :
    getPath (.vDict (mergedMapping [("port", .vStr "d")] [("port", .vStr "t")]
        [("port", .vStr "j")] [("port", .vStr "c")] [("port", .vStr "e")]))
      ["port"] = some (.vStr "e") ∧
    getPath (.vDict (mergedMapping [("port", .vStr "d")] [("port", .vStr "t")]
        [("port", .vStr "j")] [("port", .vStr "c")] []))
      ["port"] = some (.vStr "c") ∧
    getPath (.vDict (mergedMapping [("port", .vStr "d")] [("port", .vStr "t")]
        [("port", .vStr "j")] [] []))
      ["port"] = some (.vStr "j") ∧
    getPath (.vDict (mergedMapping [("port", .vStr "d")] [("port", .vStr "t")]
        [] [] []))
      ["port"] = some (.vStr "t") ∧
    getPath (.vDict (mergedMapping [("port", .vStr "d")] [] [] [] []))
      ["port"] = some (.vStr "d") := by
  have w : ∀ s : String, WFV (.vDict [("port", .vStr s)]) :=
    fun s => WFV_singleton "port" (.vStr s) (WFV.str s)
  have pf : PathFree ["port"] ([] : Entries) := PathFree.noKey _ _ _ rfl
  refine ⟨?_, ?_, ?_, ?_, ?_⟩
  · exact (c1_precedence ["port"] _ _ _ _ _ (.vStr "e") rfl
      (w "d") (w "t") (w "j") (w "c") (w "e")).1 rfl
  · exact (c1_precedence ["port"] _ _ _ _ _ (.vStr "c") rfl
      (w "d") (w "t") (w "j") (w "c") WFV_nil).2.1 pf rfl
  · exact (c1_precedence ["port"] _ _ _ _ _ (.vStr "j") rfl
      (w "d") (w "t") (w "j") WFV_nil WFV_nil).2.2.1 pf pf rfl
  · exact (c1_precedence ["port"] _ _ _ _ _ (.vStr "t") rfl
      (w "d") (w "t") WFV_nil WFV_nil WFV_nil).2.2.2.1 pf pf pf rfl
  · exact (c1_precedence ["port"] _ _ _ _ _ (.vStr "d") rfl
      (w "d") WFV_nil WFV_nil WFV_nil WFV_nil).2.2.2.2 pf pf pf pf rfl

/-- C2: `load` is not total.  (1) With an existing but malformed TOML file,
the `TOMLDecodeError` raised by `tomllib.load` is not caught — `_load_toml`'s
`except` clause names pydantic's `ValidationError`, which tomllib never
raises — and escapes the `load` boundary instead of being absorbed with a
warning.  (2) With `data` left at its `None` default,
`_deep_merge(merged_config, None)` raises `AttributeError` inside the `try`
block, which `except ValidationError` does not catch either. -/
theorem c2_load_raises_on_malformed_toml :
    loadModel 1 [] "AppConfig"
      (fun f => if f = "bad.toml" then some (.error ()) else none)
      (fun _ => none) ["bad.toml"] [] true true [] (fun _ => none)
      (some []) (fun _ => true) "TSC_"
      = some (.raised .tomlDecodeError) ∧
    loadModel 1 [] "AppConfig" (fun _ => none) (fun _ => none) [] []
      true true [] (fun _ => none) none (fun _ => true) "TSC_"
      = some (.raised .attributeError) := by
  constructor
  · rfl
  · rfl

/-- C6 counterexample: with two existing, successfully decoding TOML files,
the later file's content replaces the earlier wholesale
(`toml_config = tomllib.load(f)` is an assignment), so the key `a` set only
by the earlier file does not survive — the progressive merge the claim
describes (shown in the third conjunct) would have kept it. -/
theorem c6_files_counterexample :
    loadToml
      (fun f => if f = "f1" then some (.ok [("a", .vStr "1")])
        else if f = "f2" then some (.ok [("b", .vStr "2")]) else none)
      ["f1", "f2"] = .ok [("b", .vStr "2")] ∧
    lookupE [("b", .vStr "2")] "a" = none ∧
    deepMerge [("a", .vStr "1")] [("b", .vStr "2")]
      = [("a", .vStr "1"), ("b", .vStr "2")] := by
  refine ⟨rfl, rfl, ?_⟩
  simp [deepMerge, mergeKey, lookupE, setKey]

theorem loadFiles_ok (err : PyErr) (fs : FileSystem) (files : List String) :
    ∀ acc : Entries, (∀ f ∈ files, ∀ e, fs f ≠ some (.error e)) →
      loadFiles err fs files acc = .ok (files.foldl
        (fun acc f => match fs f with | some (.ok d) => d | _ => acc) acc) := by
  induction files with
  | nil =>
    intro acc _
    rfl
  | cons f rest ih =>
    intro acc h
    rw [loadFiles, List.foldl_cons]
    cases hf : fs f with
    | none =>
      exact ih acc (fun g hg e => h g (by simp [hg]) e)
    | some r =>
      cases r with
      | ok d =>
        exact ih d (fun g hg e => h g (by simp [hg]) e)
      | error e =>
        exact absurd hf (h f (by simp) e)

/-- C6 (amended): when several file paths of one format are supplied and
every existing file decodes successfully, the resulting fragment is the
content of the LAST existing file in caller order — wholesale replacement,
not a progressive merge, so keys set only by earlier files do not survive —
and a missing file is skipped with a warning, contributing nothing.  (An
existing file that fails to decode raises instead of being skipped; see
C2.) -/
theorem c6_last_file_wins (fs : FileSystem) (files : List String)
    (h : ∀ f ∈ files, ∀ e, fs f ≠ some (.error e)) :
    loadToml fs files = .ok (files.foldl
      (fun acc f => match fs f with | some (.ok d) => d | _ => acc) []) ∧
    loadJson fs files = .ok (files.foldl
      (fun acc f => match fs f with | some (.ok d) => d | _ => acc) []) :=
  ⟨loadFiles_ok .tomlDecodeError fs files [] h,
   loadFiles_ok .jsonDecodeError fs files [] h⟩

/-- C6 witness: the amended statement at two existing files and one missing
file — the fragment is the last existing file's content. -/
theorem c6_last_file_wins_witness :
    loadToml
      (fun f => if f = "f1" then some (.ok [("a", .vStr "1")])
        else if f = "f2" then some (.ok [("b", .vStr "2")]) else none)
      ["f1", "f2", "missing"] = .ok [("b", .vStr "2")] := by
  rw [(c6_last_file_wins
    (fun f => if f = "f1" then some (.ok [("a", .vStr "1")])
      else if f = "f2" then some (.ok [("b", .vStr "2")]) else none)
    ["f1", "f2", "missing"]
    (by intro f hf e; fin_cases hf <;> simp)).1]
  rfl

theorem strMk_eq (l : List Char) (t : String) (h : l = t.data) :
    (⟨l⟩ : String) = t := by
  cases t
  subst h
  rfl

theorem takeWhile_append_pos (p : Char → Bool) (xs ys : List Char)
    (h : ∀ x ∈ xs, p x = true) :
    (xs ++ ys).takeWhile p = xs ++ ys.takeWhile p := by
  induction xs with
  | nil => rfl
  | cons a l ih =>
    have ha : p a = true := h a (by simp)
    simp only [List.cons_append, List.takeWhile_cons, ha, if_true]
    rw [ih (fun x hx => h x (by simp [hx]))]

theorem dropWhile_append_pos (p : Char → Bool) (xs ys : List Char)
    (h : ∀ x ∈ xs, p x = true) :
    (xs ++ ys).dropWhile p = ys.dropWhile p := by
  induction xs with
  | nil => rfl
  | cons a l ih =>
    have ha : p a = true := h a (by simp)
    simp only [List.cons_append, List.dropWhile_cons, ha, if_true]
    exact ih (fun x hx => h x (by simp [hx]))

/-- The regex accepts exactly the well-formed `--key=value` splits: for a
key part free of `=` and a non-empty value, the groups are the key (with
dashes) and the value. -/
theorem matchEqual_eq_value (key v : String)
    (hk : ('=' : Char) ∉ key.data) (hkne : key ≠ "") (hvne : v ≠ "") :
    matchEqual ("--" ++ key ++ "=" ++ v) = some ("--" ++ key, v) := by
  have hdata : ("--" ++ key ++ "=" ++ v).data
      = '-' :: '-' :: (key.data ++ '=' :: v.data) := by
    simp [String.data_append]
  have hkd : ∀ x ∈ key.data, (fun c => decide (c ≠ '=')) x = true := by
    intro x hx
    simp
    intro hxe
    exact hk (hxe ▸ hx)
  rw [matchEqual, hdata]
  have htake : (key.data ++ '=' :: v.data).takeWhile (fun c => decide (c ≠ '=')) = key.data := by
    rw [takeWhile_append_pos _ _ _ hkd]
    simp [List.takeWhile_cons]
  have hdrop : (key.data ++ '=' :: v.data).dropWhile (fun c => decide (c ≠ '=')) = '=' :: v.data := by
    rw [dropWhile_append_pos _ _ _ hkd]
    simp [List.dropWhile_cons]
  simp only [htake, hdrop]
  have hke : key.data.isEmpty = false := by
    cases hd : key.data with
    | nil => exact absurd (strMk_eq [] key hd.symm).symm hkne
    | cons a l => rfl
  have hve : v.data.isEmpty = false := by
    cases hd : v.data with
    | nil => exact absurd (strMk_eq [] v hd.symm).symm hvne
    | cons a l => rfl
  rw [if_neg (by simp [hke, hve])]
  refine congrArg some (Prod.ext ?_ ?_)
  · exact strMk_eq _ _ (by simp [String.data_append])
  · exact strMk_eq _ _ rfl

/-- C4 counterexample: the canonical `_load_cli` does not support the
space-separated argument shape — with the Scalar field `port` permitted,
`["--tsc_port", "8080"]` contributes nothing to the fragment and both
tokens are collected in the unknown-arguments list. -/
theorem c4_space_shape_counterexample :
    loadCliArgs ["--tsc_port", "8080"] "TSC_" ["port"]
      = ([], [], ["--tsc_port", "8080"]) := by
  rfl

/-- C4 (amended): the canonical CLI loader recognises a Scalar field's flag
only in the `--flag=value` shape: an argument
`--{lower(prefix)}{s}=value` whose path part `s` matches a permitted field
name case-insensitively writes the value under that field's original
spelling and records the flag as loaded; any token the `--key=value` regex
rejects — including a bare `--flag` followed by a separate value token — is
collected in the unknown list (logged, not fatal) and contributes
nothing. -/
theorem c4_cli_eq_value_only (pfx s v : String) (names : List String)
    (fn : String)
    (hpfx : ('=' : Char) ∉ (pyLower pfx).data)
    (hs : ('=' : Char) ∉ s.data) (hsne : s ≠ "") (hvne : v ≠ "")
    (hfind : names.find? (fun key => pyLower key == pyLower s) = some fn) :
    loadCliArgs ["--" ++ pyLower pfx ++ s ++ "=" ++ v] pfx names
      = (addFullnameAsNestedDict [] fn (.vStr v),
         ["--" ++ pyLower pfx ++ s], []) ∧
    (∀ t : String, matchEqual t = none →
      loadCliArgs [t] pfx names = ([], [], [t])) := by
  constructor
  · have harg : ("--" ++ pyLower pfx ++ s ++ "=" ++ v)
        = ("--" ++ (pyLower pfx ++ s) ++ "=" ++ v) := by
      apply String.ext
      simp [String.data_append]
    have hkey : ('=' : Char) ∉ (pyLower pfx ++ s).data := by
      rw [String.data_append]
      intro hmem
      cases List.mem_append.mp hmem with
      | inl h => exact hpfx h
      | inr h => exact hs h
    have hkne : pyLower pfx ++ s ≠ "" := by
      intro h
      apply hsne
      have hd := congrArg String.data h
      rw [String.data_append] at hd
      have hs0 : s.data = [] := (List.append_eq_nil.mp hd).2
      exact (strMk_eq [] s hs0.symm).symm
    have hm := matchEqual_eq_value (pyLower pfx ++ s) v hkey hkne hvne
    have hdd : ("--" ++ (pyLower pfx ++ s)).data.drop ("--" ++ pyLower pfx).length
        = s.data := by
      rw [String.data_append, String.data_append]
      rw [show ("--" ++ pyLower pfx).length
            = (("--" : String).data ++ (pyLower pfx).data).length from by
        rw [← String.data_append]
        rfl]
      rw [← List.append_assoc]
      exact List.drop_left _ _
    have hdropped : pyDrop ("--" ++ (pyLower pfx ++ s))
        ("--" ++ pyLower pfx).length = s := strMk_eq _ s hdd
    rw [harg]
    simp only [loadCliArgs, List.foldl_cons, List.foldl_nil, hm, hdropped, hfind]
    rw [show ("--" ++ (pyLower pfx ++ s)) = "--" ++ pyLower pfx ++ s from by
      rw [String.append_assoc]]
    simp
  · intro t hm
    simp only [loadCliArgs, List.foldl_cons, List.foldl_nil, hm]
    simp

/-- C4 witness: with permitted Scalar name `port` and prefix `TSC_`, the
mixed-case flag `--tsc_PoRt=8080` is accepted case-insensitively and writes
the raw value under `port`; a bare `--tsc_port` token is rejected by the
regex and would be unknown. -/
theorem c4_cli_eq_value_only_witness :
    loadCliArgs ["--" ++ pyLower "TSC_" ++ "PoRt" ++ "=" ++ "8080"]
        "TSC_" ["port"]
      = (addFullnameAsNestedDict [] "port" (.vStr "8080"),
         ["--" ++ pyLower "TSC_" ++ "PoRt"], []) ∧
    loadCliArgs ["--tsc_port"] "TSC_" ["port"] = ([], [], ["--tsc_port"]) := by
  have h := c4_cli_eq_value_only "TSC_" "PoRt" "8080" ["port"] "port"
    (by decide) (by decide) (by decide) (by decide) (by rfl)
  exact ⟨h.1, h.2 "--tsc_port" rfl⟩

theorem allStrV_nil : AllStrV (.vDict ([] : Entries)) := by
  refine AllStrV.dict [] ?_
  intro p hp
  exact absurd hp (List.not_mem_nil p)

theorem allStr_mem {es : Entries} (h : AllStrV (.vDict es)) :
    ∀ p ∈ es, AllStrV p.2 := by
  cases h with
  | dict es hm => exact hm

theorem allStr_of_lookup {es : Entries} {k : String} {w : Value}
    (h : AllStrV (.vDict es)) (hl : lookupE es k = some w) : AllStrV w :=
  allStr_mem h _ (lookupE_mem es k w hl)

theorem mem_setKey {es : Entries} {k : String} {w : Value} {p : String × Value}
    (hp : p ∈ setKey es k w) : p = (k, w) ∨ p ∈ es := by
  induction es with
  | nil =>
    simp [setKey] at hp
    exact Or.inl hp
  | cons e rest ih =>
    obtain ⟨k', v'⟩ := e
    rw [setKey] at hp
    by_cases hk : k = k'
    · rw [if_pos hk] at hp
      rcases List.mem_cons.mp hp with h1 | h2
      · exact Or.inl h1
      · exact Or.inr (List.mem_cons_of_mem _ h2)
    · rw [if_neg hk] at hp
      rcases List.mem_cons.mp hp with h1 | h2
      · exact Or.inr (by rw [h1]; exact List.mem_cons_self _ _)
      · rcases ih h2 with h3 | h4
        · exact Or.inl h3
        · exact Or.inr (List.mem_cons_of_mem _ h4)

theorem allStr_setKey {es : Entries} (k : String) {w : Value}
    (h : AllStrV (.vDict es)) (hw : AllStrV w) :
    AllStrV (.vDict (setKey es k w)) := by
  refine AllStrV.dict _ ?_
  intro p hp
  rcases mem_setKey hp with h1 | h2
  · rw [h1]
    exact hw
  · exact allStr_mem h p h2

theorem allStr_addParts (parts : List String) :
    ∀ (target : Entries) (v : Value), AllStrV (.vDict target) → AllStrV v →
      AllStrV (.vDict (addParts target parts v)) := by
  induction parts with
  | nil =>
    intro t v ht _
    exact ht
  | cons p rest ih =>
    intro t v ht hv
    cases rest with
    | nil => exact allStr_setKey p ht hv
    | cons p2 r2 =>
      cases hl : lookupE t p with
      | some w =>
        cases w with
        | vDict d =>
          rw [show addParts t (p :: p2 :: r2) v
                = setKey t p (.vDict (addParts d (p2 :: r2) v)) from by
            simp [addParts, hl]]
          exact allStr_setKey p ht (ih d v (allStr_of_lookup ht hl) hv)
        | vStr a =>
          rw [show addParts t (p :: p2 :: r2) v
                = setKey t p (.vDict (addParts [] (p2 :: r2) v)) from by
            simp [addParts, hl]]
          exact allStr_setKey p ht (ih [] v allStrV_nil hv)
        | vInt a =>
          rw [show addParts t (p :: p2 :: r2) v
                = setKey t p (.vDict (addParts [] (p2 :: r2) v)) from by
            simp [addParts, hl]]
          exact allStr_setKey p ht (ih [] v allStrV_nil hv)
        | vBool a =>
          rw [show addParts t (p :: p2 :: r2) v
                = setKey t p (.vDict (addParts [] (p2 :: r2) v)) from by
            simp [addParts, hl]]
          exact allStr_setKey p ht (ih [] v allStrV_nil hv)
      | none =>
        rw [show addParts t (p :: p2 :: r2) v
              = setKey t p (.vDict (addParts [] (p2 :: r2) v)) from by
          simp [addParts, hl]]
        exact allStr_setKey p ht (ih [] v allStrV_nil hv)

theorem allStr_addFullname (t : Entries) (fullName s : String)
    (ht : AllStrV (.vDict t)) :
    AllStrV (.vDict (addFullnameAsNestedDict t fullName (.vStr s))) :=
  allStr_addParts _ t _ ht (AllStrV.str s)

/-- C5 counterexample: the canonical loaders perform no type coercion — for
the Int-typed Scalar field `port`, the flag `--tsc_port=8080` and the
variable `TSC_PORT=8080` both store the STRING `"8080"`, not the integer
`8080` the claim's coercion rule prescribes. -/
theorem c5_no_coercion_counterexample :
    (loadCliArgs ["--tsc_port=8080"] "TSC_" ["port"]).1
      = [("port", .vStr "8080")] ∧
    loadEnvVars (fun n => if n = "TSC_PORT" then some "8080" else none)
      "TSC_" ["port"] = [("port", .vStr "8080")] ∧
    (Value.vStr "8080" : Value) ≠ Value.vInt 8080 := by
  refine ⟨rfl, rfl, ?_⟩
  intro h
  exact Value.noConfusion h

/-- C5 (amended): every value a recognized CLI or environment override
inserts into its fragment is the raw input string taken verbatim — the
canonical loaders coerce nothing (typed coercion happens later, inside the
pydantic validator), so environment values are treated exactly as CLI
values: every leaf of both fragments is a string. -/
theorem c5_values_verbatim (argv names : List String) (pfx : String)
    (getenv : String → Option String) :
    AllStrV (.vDict (loadCliArgs argv pfx names).1) ∧
    AllStrV (.vDict (loadEnvVars getenv pfx names)) := by
  constructor
  · rw [loadCliArgs]
    have hgen : ∀ (args : List String)
        (acc : Entries × List String × List String),
        AllStrV (.vDict acc.1) →
        AllStrV (.vDict (args.foldl
          (fun acc arg =>
            match matchEqual arg with
            | some (argKey, argValue) =>
              let keyFullname := pyDrop argKey ("--" ++ pyLower pfx).length
              match names.find? (fun key => pyLower key == pyLower keyFullname) with
              | some fieldName =>
                (addFullnameAsNestedDict acc.1 fieldName (.vStr argValue),
                 acc.2.1 ++ [argKey], acc.2.2)
              | none => (acc.1, acc.2.1, acc.2.2 ++ [arg])
            | none => (acc.1, acc.2.1, acc.2.2 ++ [arg])) acc).1) := by
      intro args
      induction args with
      | nil =>
        intro acc h
        exact h
      | cons a rest ih =>
        intro acc h
        rw [List.foldl_cons]
        cases hm : matchEqual a with
        | none => exact ih _ h
        | some kv =>
          obtain ⟨argKey, argValue⟩ := kv
          cases hf : names.find?
              (fun key => pyLower key == pyLower
                (pyDrop argKey ("--" ++ pyLower pfx).length)) with
          | none =>
            simp only [hf]
            exact ih _ h
          | some fieldName =>
            simp only [hf]
            exact ih _ (allStr_addFullname _ _ _ h)
    exact hgen argv ([], [], []) allStrV_nil
  · rw [loadEnvVars]
    have hgen : ∀ (ns : List String) (acc : Entries), AllStrV (.vDict acc) →
        AllStrV (.vDict (ns.foldl
          (fun cfg fn =>
            match getenv (pyUpper pfx ++ pyUpper fn) with
            | some v => addFullnameAsNestedDict cfg fn (.vStr v)
            | none => cfg) acc)) := by
      intro ns
      induction ns with
      | nil =>
        intro acc h
        exact h
      | cons fn rest ih =>
        intro acc h
        rw [List.foldl_cons]
        cases hg : getenv (pyUpper pfx ++ pyUpper fn) with
        | none => exact ih _ h
        | some v => exact ih _ (allStr_addFullname _ _ _ h)
    exact hgen names [] allStrV_nil

theorem mem_insertByName {x y : String × FieldDef}
    {l : List (String × FieldDef)} (h : y ∈ insertByName x l) :
    y = x ∨ y ∈ l := by
  induction l with
  | nil =>
    simp [insertByName] at h
    exact Or.inl h
  | cons z zs ih =>
    rw [insertByName] at h
    by_cases hle : pyStrLe x.1 z.1 = true
    · rw [if_pos hle] at h
      rcases List.mem_cons.mp h with h1 | h2
      · exact Or.inl h1
      · exact Or.inr h2
    · rw [if_neg hle] at h
      rcases List.mem_cons.mp h with h1 | h2
      · exact Or.inr (by rw [h1]; exact List.mem_cons_self _ _)
      · rcases ih h2 with h3 | h4
        · exact Or.inl h3
        · exact Or.inr (List.mem_cons_of_mem _ h4)

theorem mem_of_mem_sortFields {f : String × FieldDef}
    {fs : List (String × FieldDef)} (h : f ∈ sortFields fs) : f ∈ fs := by
  induction fs with
  | nil => exact absurd h (List.not_mem_nil f)
  | cons g gs ih =>
    rcases mem_insertByName h with h1 | h2
    · rw [h1]
      exact List.mem_cons_self _ _
    · exact List.mem_cons_of_mem _ (ih h2)

theorem walkF_envMutual_none (n : Nat) :
    (∀ path, walkF n envMutual "A" path = none) ∧
    (∀ path, walkF n envMutual "B" path = none) := by
  induction n with
  | zero => exact ⟨fun _ => rfl, fun _ => rfl⟩
  | succ n ih =>
    constructor
    · intro path
      show walkFields (fun m p => walkF n envMutual m p) "A" path
        (sortFields (fieldsOf envMutual "A")) = none
      rw [show sortFields (fieldsOf envMutual "A")
            = [("xs", (⟨.listOf (.modelRef "B"), none, none⟩ : FieldDef))] from rfl]
      simp [walkFields, ih.2]
    · intro path
      show walkFields (fun m p => walkF n envMutual m p) "B" path
        (sortFields (fieldsOf envMutual "B")) = none
      rw [show sortFields (fieldsOf envMutual "B")
            = [("ys", (⟨.listOf (.modelRef "A"), none, none⟩ : FieldDef))] from rfl]
      simp [walkFields, ih.1]

/-- C7 counterexample: termination fails on a mutually recursive schema.
On `class A: xs: list[B]` / `class B: ys: list[A]` — both legitimate
pydantic models — the guard compares the list element type only against its
immediate container, so the walk bounces between `A` and `B` forever: no
recursion depth completes. -/
theorem c7_walk_counterexample : ¬ WalkTerminates envMutual "A" := by
  intro h
  obtain ⟨n, hn⟩ := h
  rw [(walkF_envMutual_none n).1 ""] at hn
  simp at hn

/-- C7 (amended): the schema walk terminates for every stratified schema —
one admitting a rank on model names that strictly decreases along each walk
recursion edge (nested-model fields, and `list[*]` element types other than
the container itself, which the guard skips); depth `rank + 1` suffices.
A directly self-referential list field costs no recursion at all: on
`A { name: str, xs: list[A] }` the walk finishes at depth 1 and emits
exactly the two field descriptors, never recursing into the same type as
its own container.  (Mutual recursion between distinct models admits no
rank, and the walk does not terminate there — see the counterexample.) -/
theorem c7_walk_terminates (env : Env) (r : String → Nat)
    (hr : ∀ a b, EdgeR env a b → r b < r a) :
    (∀ n m path, r m < n → walkF n env m path ≠ none) ∧
    walkF 1 envSelf "A" ""
      = some [mkMeta "A" "name" "" ⟨.prim "str", none, none⟩,
              mkMeta "A" "xs" "" ⟨.listOf (.modelRef "A"), none, none⟩] := by
  constructor
  · intro n
    induction n with
    | zero =>
      intro m path h
      exact absurd h (Nat.not_lt_zero _)
    | succ n ih =>
      intro m path hm
      have hle : r m ≤ n := Nat.lt_succ_iff.mp hm
      show walkFields (fun m p => walkF n env m p) m path
        (sortFields (fieldsOf env m)) ≠ none
      have haux : ∀ fs : List (String × FieldDef),
          (∀ f ∈ fs, f ∈ fieldsOf env m) →
          ∀ path2 : String,
          walkFields (fun m p => walkF n env m p) m path2 fs ≠ none := by
        intro fs
        induction fs with
        | nil =>
          intro _ path2
          simp [walkFields]
        | cons f rest ihf =>
          intro hmem path2
          obtain ⟨fname, fd⟩ := f
          have hrest := ihf (fun g hg => hmem g (List.mem_cons_of_mem _ hg)) path2
          obtain ⟨rl, hrl⟩ := Option.ne_none_iff_exists'.mp hrest
          have hmemf : (fname, fd) ∈ fieldsOf env m :=
            hmem _ (List.mem_cons_self _ _)
          cases hann : fd.ann with
          | prim p =>
            simp [walkFields, hann, hrl]
          | modelRef m2 =>
            have hedge : EdgeR env m m2 := ⟨fname, fd, hmemf, Or.inl hann⟩
            have hm2 : r m2 < n := Nat.lt_of_lt_of_le (hr m m2 hedge) hle
            obtain ⟨cl, hcl⟩ := Option.ne_none_iff_exists'.mp
              (ih m2 (if path2 = "" then fname else path2 ++ "__" ++ fname) hm2)
            simp [walkFields, hann, hcl, hrl]
          | listOf e =>
            cases e with
            | modelRef m2 =>
              by_cases heq : m2 = m
              · simp [walkFields, hann, heq, hrl]
              · have hedge : EdgeR env m m2 :=
                  ⟨fname, fd, hmemf, Or.inr ⟨hann, heq⟩⟩
                have hm2 : r m2 < n := Nat.lt_of_lt_of_le (hr m m2 hedge) hle
                obtain ⟨cl, hcl⟩ := Option.ne_none_iff_exists'.mp
                  (ih m2 (if path2 = "" then fname else path2 ++ "__" ++ fname) hm2)
                simp [walkFields, hann, heq, hcl, hrl]
            | prim p => simp [walkFields, hann, hrl]
            | listOf e2 => simp [walkFields, hann, hrl]
      exact haux _ (fun f hf => mem_of_mem_sortFields hf) path
  · rfl

/-- C7 witness: on the stratified two-level schema `P { child: C }`,
`C { x: str }` with rank `P ↦ 1, C ↦ 0`, the walk completes at depth 2. -/
theorem c7_walk_terminates_witness :
    walkF 2 envParentChild "P" "" ≠ none := by
  have hr : ∀ a b, EdgeR envParentChild a b →
      (fun m => if m = "P" then 1 else 0) b
        < (fun m => if m = "P" then 1 else 0) a := by
    intro a b hedge
    obtain ⟨fname, fd, hmem, hor⟩ := hedge
    by_cases hA : a = "P"
    · subst hA
      have hm2 : (fname, fd)
          ∈ [("child", (⟨.modelRef "C", none, none⟩ : FieldDef))] := hmem
      simp at hm2
      obtain ⟨h1, h2⟩ := hm2
      subst h2
      rcases hor with h | h
      · have hb : b = "C" := by
          injection h with hh
          exact hh.symm
        subst hb
        decide
      · exact absurd h.1 (by simp)
    · by_cases hB : a = "C"
      · subst hB
        have hm2 : (fname, fd)
            ∈ [("x", (⟨.prim "str", none, none⟩ : FieldDef))] := hmem
        simp at hm2
        obtain ⟨h1, h2⟩ := hm2
        subst h2
        rcases hor with h | h
        · exact absurd h (by simp)
        · exact absurd h.1 (by simp)
      · have hnil : fieldsOf envParentChild a = [] := by
          have hP : (("P" : String) == a) = false := by
            simp
            exact Ne.symm hA
          have hC : (("C" : String) == a) = false := by
            simp
            exact Ne.symm hB
          simp [fieldsOf, lookupModel, envParentChild, List.find?, hP, hC]
        rw [hnil] at hmem
        exact absurd hmem (List.not_mem_nil _)
  exact (c7_walk_terminates envParentChild
    (fun m => if m = "P" then 1 else 0) hr).1 2 "P" "" (by decide)

theorem self_mem_insertByName (x : String × FieldDef)
    (l : List (String × FieldDef)) : x ∈ insertByName x l := by
  induction l with
  | nil => exact List.mem_cons_self _ _
  | cons y ys ih =>
    rw [insertByName]
    by_cases hle : pyStrLe x.1 y.1 = true
    · rw [if_pos hle]
      exact List.mem_cons_self _ _
    · rw [if_neg hle]
      exact List.mem_cons_of_mem _ ih

theorem mem_insertByName_of_mem {y : String × FieldDef}
    {l : List (String × FieldDef)} (x : String × FieldDef) (h : y ∈ l) :
    y ∈ insertByName x l := by
  induction l with
  | nil => exact absurd h (List.not_mem_nil _)
  | cons z zs ih =>
    rw [insertByName]
    by_cases hle : pyStrLe x.1 z.1 = true
    · rw [if_pos hle]
      exact List.mem_cons_of_mem _ h
    · rw [if_neg hle]
      rcases List.mem_cons.mp h with h1 | h2
      · rw [h1]
        exact List.mem_cons_self _ _
      · exact List.mem_cons_of_mem _ (ih h2)

theorem mem_sortFields_of_mem {f : String × FieldDef}
    {fs : List (String × FieldDef)} (h : f ∈ fs) : f ∈ sortFields fs := by
  induction fs with
  | nil => exact absurd h (List.not_mem_nil _)
  | cons g gs ih =>
    rcases List.mem_cons.mp h with h1 | h2
    · rw [h1]
      exact self_mem_insertByName g (sortFields gs)
    · exact mem_insertByName_of_mem g (ih h2)

/-- What `_set_frozen` does to the frozen state: it never clears a flag,
and it sets the flag of every model class reachable from the argument. -/
theorem setFrozenF_spec (env : Env) : ∀ n root st st',
    setFrozenF n env root st = some st' →
    (∀ m, st m = true → st' m = true) ∧
    (∀ m, Reaches env root m → st' m = true) := by
  intro n
  induction n with
  | zero =>
    intro root st st' h
    exact absurd h (by simp [setFrozenF])
  | succ n ih =>
    intro root st st' h
    rw [setFrozenF] at h
    cases hf : setFrozenFields (fun m s => setFrozenF n env m s) root
        (sortFields (fieldsOf env root)) st with
    | none =>
      rw [hf] at h
      simp at h
    | some stv =>
      rw [hf] at h
      simp at h
      subst h
      have haux : ∀ (fs : List (String × FieldDef)) (st0 st1 : FrozenSt),
          setFrozenFields (fun m s => setFrozenF n env m s) root fs st0
            = some st1 →
          (∀ m, st0 m = true → st1 m = true) ∧
          (∀ fname fd b, (fname, fd) ∈ fs →
            (fd.ann = .modelRef b ∨
              (fd.ann = .listOf (.modelRef b) ∧ b ≠ root)) →
            ∀ c, Reaches env b c → st1 c = true) := by
        intro fs
        induction fs with
        | nil =>
          intro st0 st1 hh
          rw [setFrozenFields] at hh
          simp only [Option.some.injEq] at hh
          subst hh
          refine ⟨fun m hm => hm, ?_⟩
          intro fname fd b hmem
          exact absurd hmem (List.not_mem_nil _)
        | cons f rest ihf =>
          intro st0 st1 hh
          obtain ⟨fname, fd⟩ := f
          rw [setFrozenFields] at hh
          cases hann : fd.ann with
          | prim p =>
            rw [hann] at hh
            simp at hh
            obtain ⟨hmono, hedges⟩ := ihf st0 st1 hh
            refine ⟨hmono, ?_⟩
            intro fname2 fd2 b hmem hdisj c hr
            rcases List.mem_cons.mp hmem with h1 | h2
            · injection h1 with ha hb
              subst hb
              rcases hdisj with hl | hl
              · rw [hann] at hl
                exact PType.noConfusion hl
              · obtain ⟨hl1, hl2⟩ := hl
                rw [hann] at hl1
                exact PType.noConfusion hl1
            · exact hedges fname2 fd2 b h2 hdisj c hr
          | modelRef m2 =>
            rw [hann] at hh
            simp at hh
            cases hA : setFrozenF n env m2 st0 with
            | none =>
              rw [hA] at hh
              simp at hh
            | some stA =>
              rw [hA] at hh
              simp at hh
              obtain ⟨hmonoA, hreachA⟩ := ih m2 st0 stA hA
              obtain ⟨hmono, hedges⟩ := ihf stA st1 hh
              refine ⟨fun m hm => hmono m (hmonoA m hm), ?_⟩
              intro fname2 fd2 b hmem hdisj c hr
              rcases List.mem_cons.mp hmem with h1 | h2
              · injection h1 with ha hb
                subst hb
                rcases hdisj with hl | hl
                · rw [hann] at hl
                  injection hl with hb2
                  subst hb2
                  exact hmono c (hreachA c hr)
                · obtain ⟨hl1, hl2⟩ := hl
                  rw [hann] at hl1
                  exact PType.noConfusion hl1
              · exact hedges fname2 fd2 b h2 hdisj c hr
          | listOf e =>
            cases e with
            | modelRef m2 =>
              by_cases heq : m2 = root
              · subst heq
                rw [hann] at hh
                simp at hh
                obtain ⟨hmono, hedges⟩ := ihf st0 st1 hh
                refine ⟨hmono, ?_⟩
                intro fname2 fd2 b hmem hdisj c hr
                rcases List.mem_cons.mp hmem with h1 | h2
                · injection h1 with ha hb
                  subst hb
                  rcases hdisj with hl | hl
                  · rw [hann] at hl
                    exact PType.noConfusion hl
                  · obtain ⟨hl1, hl2⟩ := hl
                    rw [hann] at hl1
                    injection hl1 with hi1
                    injection hi1 with hi2
                    exact absurd hi2.symm hl2
                · exact hedges fname2 fd2 b h2 hdisj c hr
              · rw [hann] at hh
                simp [heq] at hh
                cases hA : setFrozenF n env m2 st0 with
                | none =>
                  rw [hA] at hh
                  simp at hh
                | some stA =>
                  rw [hA] at hh
                  simp at hh
                  obtain ⟨hmonoA, hreachA⟩ := ih m2 st0 stA hA
                  obtain ⟨hmono, hedges⟩ := ihf stA st1 hh
                  refine ⟨fun m hm => hmono m (hmonoA m hm), ?_⟩
                  intro fname2 fd2 b hmem hdisj c hr
                  rcases List.mem_cons.mp hmem with h1 | h2
                  · injection h1 with ha hb
                    subst hb
                    rcases hdisj with hl | hl
                    · rw [hann] at hl
                      exact PType.noConfusion hl
                    · obtain ⟨hl1, hl2⟩ := hl
                      rw [hann] at hl1
                      injection hl1 with hi1
                      injection hi1 with hi2
                      subst hi2
                      exact hmono c (hreachA c hr)
                  · exact hedges fname2 fd2 b h2 hdisj c hr
            | prim p2 =>
              rw [hann] at hh
              simp at hh
              obtain ⟨hmono, hedges⟩ := ihf st0 st1 hh
              refine ⟨hmono, ?_⟩
              intro fname2 fd2 b hmem hdisj c hr
              rcases List.mem_cons.mp hmem with h1 | h2
              · injection h1 with ha hb
                subst hb
                rcases hdisj with hl | hl
                · rw [hann] at hl
                  exact PType.noConfusion hl
                · obtain ⟨hl1, hl2⟩ := hl
                  rw [hann] at hl1
                  injection hl1 with hi1
                  exact PType.noConfusion hi1
              · exact hedges fname2 fd2 b h2 hdisj c hr
            | listOf e2 =>
              rw [hann] at hh
              simp at hh
              obtain ⟨hmono, hedges⟩ := ihf st0 st1 hh
              refine ⟨hmono, ?_⟩
              intro fname2 fd2 b hmem hdisj c hr
              rcases List.mem_cons.mp hmem with h1 | h2
              · injection h1 with ha hb
                subst hb
                rcases hdisj with hl | hl
                · rw [hann] at hl
                  exact PType.noConfusion hl
                · obtain ⟨hl1, hl2⟩ := hl
                  rw [hann] at hl1
                  injection hl1 with hi1
                  exact PType.noConfusion hi1
              · exact hedges fname2 fd2 b h2 hdisj c hr
      obtain ⟨hmono, hedges⟩ := haux _ st stv hf
      constructor
      · intro m hm
        show setFlag stv root m = true
        rw [setFlag]
        by_cases hmr : m = root
        · rw [if_pos hmr]
        · rw [if_neg hmr]
          exact hmono m hm
      · intro m hr
        show setFlag stv root m = true
        cases hr
        · rw [setFlag, if_pos rfl]
        · rename_i b hedge hbc
          obtain ⟨fname, fd, hmem, hdisj⟩ := hedge
          have hc := hedges fname fd b (mem_sortFields_of_mem hmem) hdisj m hbc
          rw [setFlag]
          by_cases hmr : m = root
          · rw [if_pos hmr]
          · rw [if_neg hmr]
            exact hc
/-- C8: after a load that requested freezing (`readonly=True`) succeeds —
so `_set_frozen` completed, returning frozen state `st'` from the initial
unfrozen state — every attempt to assign a field on any model class
reachable from the root (the root itself, nested objects at any depth, and
list-of-object element types) fails with the distinguishable
`frozen_instance` error instead of silently succeeding, whereas after a
load without freezing (the state untouched, all classes unfrozen) the same
assignment succeeds. -/
theorem c8_frozen_assignments (env : Env) (n : Nat) (root : String)
    (st' : FrozenSt)
    (h : setFrozenF n env root (fun _ => false) = some st') :
    (∀ m, Reaches env root m → assignField st' m = .frozenError) ∧
    (∀ m, assignField (fun _ => false) m = .assigned) := by
  constructor
  · intro m hm
    have hfl := (setFrozenF_spec env n root _ st' h).2 m hm
    rw [assignField, if_pos hfl]
  · intro m
    rfl

/-- C8 witness: on the demo-like schema, freezing from the root marks the
nested `User` class (reached through the `user` field) frozen, so assigning
one of its fields errors; without freezing the assignment succeeds. -/
theorem c8_frozen_assignments_witness :
    setFrozenF 2 envApp "App" (fun _ => false) = some stAppFrozen ∧
    assignField stAppFrozen "User" = .frozenError ∧
    assignField stAppFrozen "Prompt" = .frozenError ∧
    assignField stAppFrozen "App" = .frozenError ∧
    assignField (fun _ => false) "User" = .assigned := by
  have hset : setFrozenF 2 envApp "App" (fun _ => false) = some stAppFrozen := rfl
  have h := c8_frozen_assignments envApp 2 "App" stAppFrozen hset
  have huser : Reaches envApp "App" "User" := by
    refine Reaches.step "App" "User" "User" ?_ (Reaches.refl "User")
    refine ⟨"user", ⟨.modelRef "User", none, none⟩, ?_, Or.inl rfl⟩
    show _ ∈ [("user", (⟨.modelRef "User", none, none⟩ : FieldDef)),
      ("prompts", ⟨.listOf (.modelRef "Prompt"), none, none⟩),
      ("port", ⟨.prim "int", none, none⟩)]
    exact List.mem_cons_self _ _
  have hprompt : Reaches envApp "App" "Prompt" := by
    refine Reaches.step "App" "Prompt" "Prompt" ?_ (Reaches.refl "Prompt")
    refine ⟨"prompts", ⟨.listOf (.modelRef "Prompt"), none, none⟩, ?_,
      Or.inr ⟨rfl, by decide⟩⟩
    show _ ∈ [("user", (⟨.modelRef "User", none, none⟩ : FieldDef)),
      ("prompts", ⟨.listOf (.modelRef "Prompt"), none, none⟩),
      ("port", ⟨.prim "int", none, none⟩)]
    exact List.mem_cons_of_mem _ (List.mem_cons_self _ _)
  exact ⟨hset, h.1 "User" huser, h.1 "Prompt" hprompt,
    h.1 "App" (Reaches.refl "App"), h.2 "User"⟩

/-- C9 counterexample: full paths are not unique for every schema.  On a
model with a nested-model field `a` (whose model has field `b`) and a
sibling field literally named `a__b` — a legal Python identifier — the
catalogue contains two descriptors with `full_path = "a__b"`. -/
theorem c9_fullpath_collision_counterexample :
    (walkF 2 envC9 "M" "").map (fun l => l.map AttrMeta.fullname)
      = some ["a", "a__b", "a__b"] ∧
    ¬ (["a", "a__b", "a__b"] : List String).Nodup := by
  constructor
  · rfl
  · decide

theorem joinDunder_singleton (x : List Char) : joinDunder [x] = x := rfl

theorem joinSegs_singleton (f : String) : joinSegs [f] = f := by
  apply String.ext
  rfl

theorem joinDunder_ne_nil (x : List Char) (xs : List (List Char))
    (hx : x ≠ []) : joinDunder (x :: xs) ≠ [] := by
  cases xs with
  | nil => exact hx
  | cons y ys =>
    show x ++ '_' :: '_' :: joinDunder (y :: ys) ≠ []
    simp [hx]

theorem joinSegs_ne_empty (a : String) (rest : List String)
    (ha : a.data ≠ []) : joinSegs (a :: rest) ≠ "" := by
  intro h
  have hd := congrArg String.data h
  have : joinDunder (a.data :: rest.map String.data) = [] := hd
  exact joinDunder_ne_nil _ _ ha this

theorem joinDunder_append_one (xs : List (List Char)) (y : List Char)
    (h : xs ≠ []) :
    joinDunder (xs ++ [y]) = joinDunder xs ++ '_' :: '_' :: y := by
  induction xs with
  | nil => exact absurd rfl h
  | cons x rest ih =>
    cases rest with
    | nil => rfl
    | cons x2 r2 =>
      have h2 : joinDunder (x :: x2 :: r2 ++ [y])
          = x ++ '_' :: '_' :: joinDunder (x2 :: r2 ++ [y]) := rfl
      rw [List.cons_append] at h2 ⊢
      rw [h2, ih (by simp)]
      rw [show joinDunder (x :: x2 :: r2) = x ++ '_' :: '_' :: joinDunder (x2 :: r2) from rfl]
      simp

theorem joinSegs_append_one (q : List String) (f : String) (hq : q ≠ []) :
    joinSegs (q ++ [f]) = joinSegs q ++ "__" ++ f := by
  apply String.ext
  show joinDunder ((q ++ [f]).map String.data) = _
  rw [List.map_append]
  rw [show List.map String.data [f] = [f.data] from rfl]
  rw [joinDunder_append_one _ _ (by simpa using hq)]
  rw [String.data_append, String.data_append]
  show _ = joinDunder (q.map String.data) ++ ("__" : String).data ++ f.data
  simp

theorem goodPath_of_all_good (q : List String) (hq : q ≠ [])
    (h : ∀ s ∈ q, goodFieldName s = true) : GoodPath q := by
  induction q with
  | nil => exact absurd rfl hq
  | cons a rest ih =>
    have ha := h a (by simp)
    simp [goodFieldName] at ha
    obtain ⟨⟨ha1, ha2⟩, ha3⟩ := ha
    cases rest with
    | nil => exact GoodPath.single a ha2
    | cons b r2 =>
      exact GoodPath.cons a _ ha2 ha3
        (ih (by simp) (fun s hs => h s (by simp [hs])))

theorem joinSegs_inj_good (q1 q2 : List String) (h1 : q1 ≠ []) (h2 : q2 ≠ [])
    (hg1 : ∀ s ∈ q1, goodFieldName s = true)
    (hg2 : ∀ s ∈ q2, goodFieldName s = true)
    (h : joinSegs q1 = joinSegs q2) : q1 = q2 := by
  have e1 := splitFullname_joinSegs q1 (goodPath_of_all_good q1 h1 hg1)
  have e2 := splitFullname_joinSegs q2 (goodPath_of_all_good q2 h2 hg2)
  rw [← e1, ← e2, h]

theorem fullname_join (ps : List String) (fname : String)
    (hps : ∀ s ∈ ps, goodFieldName s = true) :
    (if joinSegs ps = "" then fname else joinSegs ps ++ "__" ++ fname)
      = joinSegs (ps ++ [fname]) := by
  cases ps with
  | nil =>
    rw [if_pos (show joinSegs [] = "" from rfl)]
    exact (joinSegs_singleton fname).symm
  | cons a rest =>
    have ha := hps a (by simp)
    simp [goodFieldName] at ha
    obtain ⟨⟨ha1, ha2⟩, ha3⟩ := ha
    rw [if_neg (joinSegs_ne_empty a rest ha1)]
    exact (joinSegs_append_one (a :: rest) fname (by simp)).symm

theorem strLtChars_asymm : ∀ x y, strLtChars x y = true → strLtChars y x = false := by
  intro x
  induction x with
  | nil =>
    intro y h
    cases y with
    | nil => simp [strLtChars] at h
    | cons b bs => rfl
  | cons a as ih =>
    intro y h
    cases y with
    | nil => simp [strLtChars] at h
    | cons b bs =>
      rw [strLtChars] at h ⊢
      by_cases hab : a < b
      · rw [if_neg (lt_asymm hab), if_pos hab]
      · by_cases hba : b < a
        · rw [if_neg hab, if_pos hba] at h
          exact absurd h (by simp)
        · rw [if_neg hab, if_neg hba] at h
          rw [if_neg hba, if_neg hab]
          exact ih bs h

theorem strLtChars_cotrans : ∀ c a b, strLtChars c a = true →
    strLtChars c b = true ∨ strLtChars b a = true := by
  intro c
  induction c with
  | nil =>
    intro a b h
    cases a with
    | nil => simp [strLtChars] at h
    | cons a1 as =>
      cases b with
      | nil => exact Or.inr rfl
      | cons b1 bs => exact Or.inl rfl
  | cons c1 cs ih =>
    intro a b h
    cases a with
    | nil => simp [strLtChars] at h
    | cons a1 as =>
      cases b with
      | nil => exact Or.inr rfl
      | cons b1 bs =>
        rw [strLtChars] at h ⊢
        rw [show strLtChars (b1 :: bs) (a1 :: as)
              = (if b1 < a1 then true else if a1 < b1 then false
                  else strLtChars bs as) from rfl]
        by_cases h1 : c1 < a1
        · by_cases h2 : c1 < b1
          · rw [if_pos h2]
            exact Or.inl rfl
          · have hb1 : b1 < a1 := lt_of_le_of_lt (le_of_not_lt h2) h1
            rw [if_pos hb1]
            exact Or.inr rfl
        · by_cases h1b : a1 < c1
          · rw [if_pos h1b] at h
            rw [if_neg h1] at h
            exact absurd h (by simp)
          · have hca : c1 = a1 := le_antisymm (le_of_not_lt h1b) (le_of_not_lt h1)
            rw [if_neg h1, if_neg h1b] at h
            by_cases h2 : c1 < b1
            · rw [if_pos h2]
              exact Or.inl rfl
            · by_cases h2b : b1 < c1
              · have hba : b1 < a1 := hca ▸ h2b
                rw [if_pos hba]
                exact Or.inr rfl
              · have hcb : c1 = b1 := le_antisymm (le_of_not_lt h2b) (le_of_not_lt h2)
                have hab : ¬ b1 < a1 := by
                  rw [← hca, ← hcb]
                  exact lt_irrefl c1
                have hab2 : ¬ a1 < b1 := by
                  rw [← hca, ← hcb]
                  exact lt_irrefl c1
                rw [if_neg h2, if_neg h2b, if_neg hab, if_neg hab2]
                exact ih as bs h

theorem pyStrLe_total (a b : String) :
    pyStrLe a b = true ∨ pyStrLe b a = true := by
  rw [pyStrLe, pyStrLe]
  cases hba : strLtChars b.data a.data with
  | false => exact Or.inl rfl
  | true =>
    right
    rw [strLtChars_asymm _ _ hba]
    rfl

theorem pyStrLe_trans (a b c : String) (h1 : pyStrLe a b = true)
    (h2 : pyStrLe b c = true) : pyStrLe a c = true := by
  rw [pyStrLe] at h1 h2 ⊢
  cases hca : strLtChars c.data a.data with
  | false => rfl
  | true =>
    rcases strLtChars_cotrans c.data a.data b.data hca with h3 | h3
    · rw [h3] at h2
      exact absurd h2 (by simp)
    · rw [h3] at h1
      exact absurd h1 (by simp)

theorem insertByName_perm (x : String × FieldDef)
    (l : List (String × FieldDef)) : (insertByName x l).Perm (x :: l) := by
  induction l with
  | nil => exact List.Perm.refl _
  | cons y ys ih =>
    rw [insertByName]
    by_cases hle : pyStrLe x.1 y.1 = true
    · rw [if_pos hle]
    · rw [if_neg hle]
      exact (ih.cons y).trans (List.Perm.swap x y ys)

theorem sortFields_perm (fs : List (String × FieldDef)) :
    (sortFields fs).Perm fs := by
  induction fs with
  | nil => exact List.Perm.refl _
  | cons f rest ih =>
    exact (insertByName_perm f (sortFields rest)).trans (ih.cons f)

theorem pairwise_insertByName (x : String × FieldDef)
    (l : List (String × FieldDef))
    (h : List.Pairwise (fun a b => pyStrLe a.1 b.1 = true) l) :
    List.Pairwise (fun a b => pyStrLe a.1 b.1 = true) (insertByName x l) := by
  induction l with
  | nil => simp [insertByName]
  | cons y ys ih =>
    rw [List.pairwise_cons] at h
    obtain ⟨hy, hys⟩ := h
    rw [insertByName]
    by_cases hle : pyStrLe x.1 y.1 = true
    · rw [if_pos hle]
      rw [List.pairwise_cons]
      refine ⟨?_, List.pairwise_cons.mpr ⟨hy, hys⟩⟩
      intro z hz
      rcases List.mem_cons.mp hz with h1 | h2
      · rw [h1]
        exact hle
      · exact pyStrLe_trans _ _ _ hle (hy z h2)
    · rw [if_neg hle]
      rw [List.pairwise_cons]
      refine ⟨?_, ih hys⟩
      intro z hz
      rcases mem_insertByName hz with h1 | h2
      · rw [h1]
        rcases pyStrLe_total y.1 x.1 with ht | ht
        · exact ht
        · exact absurd ht hle
      · exact hy z h2

/-- `sorted(model.model_fields.items())` orders siblings lexicographically
by field name. -/
theorem sortFields_sorted (fs : List (String × FieldDef)) :
    List.Pairwise (fun a b => pyStrLe a.1 b.1 = true) (sortFields fs) := by
  induction fs with
  | nil => simp [sortFields]
  | cons f rest ih => exact pairwise_insertByName f _ ih

theorem nodupKeys_iff (fs : List (String × FieldDef)) :
    nodupKeysF fs = true ↔ (fs.map Prod.fst).Nodup := by
  induction fs with
  | nil => simp [nodupKeysF]
  | cons f rest ih =>
    obtain ⟨k, fd⟩ := f
    rw [nodupKeysF]
    rw [List.map_cons, List.nodup_cons, ← ih]
    rw [Bool.and_eq_true, Bool.not_eq_true']
    constructor
    · rintro ⟨h1, h2⟩
      refine ⟨?_, h2⟩
      intro hk
      obtain ⟨e, he, hke⟩ := List.mem_map.mp hk
      have : rest.any (fun e => e.1 == k) = true :=
        List.any_eq_true.mpr ⟨e, he, by simp [hke]⟩
      rw [this] at h1
      cases h1
    · rintro ⟨h1, h2⟩
      refine ⟨?_, h2⟩
      cases hany : rest.any (fun e => e.1 == k) with
      | false => rfl
      | true =>
        obtain ⟨e, he, hke⟩ := List.any_eq_true.mp hany
        simp at hke
        exact absurd (List.mem_map.mpr ⟨e, he, hke⟩) h1

theorem wfEnv_fields {env : Env} (h : wfEnv env = true) (m : String) :
    ((fieldsOf env m).map Prod.fst).Nodup ∧
    ∀ f ∈ fieldsOf env m, goodFieldName f.1 = true := by
  rw [wfEnv, List.all_eq_true] at h
  rw [fieldsOf, lookupModel]
  cases hf : env.find? (fun e => e.1 == m) with
  | none =>
    constructor
    · simp
    · intro f hf2
      simp at hf2
  | some e =>
    have hmem := List.mem_of_find?_eq_some hf
    have he := h e hmem
    rw [Bool.and_eq_true] at he
    constructor
    · exact (nodupKeys_iff e.2).mp he.1
    · intro f hf2
      exact List.all_eq_true.mp he.2 f hf2

theorem joinSegs_path_inj (ps : List String) (g1 g2 : String)
    (t1 t2 : List String)
    (hps : ∀ s ∈ ps, goodFieldName s = true)
    (h1 : ∀ s ∈ g1 :: t1, goodFieldName s = true)
    (h2 : ∀ s ∈ g2 :: t2, goodFieldName s = true)
    (h : joinSegs (ps ++ g1 :: t1) = joinSegs (ps ++ g2 :: t2)) :
    g1 = g2 ∧ t1 = t2 := by
  have hall1 : ∀ s ∈ ps ++ g1 :: t1, goodFieldName s = true := by
    intro s hs
    rcases List.mem_append.mp hs with hh | hh
    · exact hps s hh
    · exact h1 s hh
  have hall2 : ∀ s ∈ ps ++ g2 :: t2, goodFieldName s = true := by
    intro s hs
    rcases List.mem_append.mp hs with hh | hh
    · exact hps s hh
    · exact h2 s hh
  have heq := joinSegs_inj_good _ _ (by simp) (by simp) hall1 hall2 h
  have heq2 := List.append_cancel_left heq
  exact ⟨by injection heq2, by injection heq2⟩

theorem c9_combine (ps : List String) (fname : String)
    (restKeys clNames restNames : List String)
    (hpsg : ∀ s ∈ ps, goodFieldName s = true)
    (hfn : goodFieldName fname = true)
    (hknotin : fname ∉ restKeys)
    (hclN : clNames.Nodup)
    (hclP : ∀ fn ∈ clNames, ∃ t, t ≠ [] ∧
      (∀ s ∈ t, goodFieldName s = true) ∧ fn = joinSegs ((ps ++ [fname]) ++ t))
    (hrN : restNames.Nodup)
    (hrP : ∀ fn ∈ restNames, ∃ g t, g ∈ restKeys ∧
      (∀ s ∈ g :: t, goodFieldName s = true) ∧ fn = joinSegs (ps ++ g :: t)) :
    (joinSegs (ps ++ [fname]) :: clNames ++ restNames).Nodup ∧
    (∀ fn ∈ joinSegs (ps ++ [fname]) :: clNames ++ restNames,
      ∃ g t, g ∈ fname :: restKeys ∧
        (∀ s ∈ g :: t, goodFieldName s = true) ∧
        fn = joinSegs (ps ++ g :: t)) := by
  have hgoodnil : ∀ s ∈ ([fname] : List String), goodFieldName s = true := by
    intro s hs
    rw [List.mem_singleton.mp hs]
    exact hfn
  have hgood1 : ∀ t, (∀ s ∈ t, goodFieldName s = true) →
      ∀ s ∈ fname :: t, goodFieldName s = true := by
    intro t ht s hs
    rcases List.mem_cons.mp hs with hh | hh
    · rw [hh]
      exact hfn
    · exact ht s hh
  have hclP2 : ∀ fn ∈ clNames, ∃ t, t ≠ [] ∧
      (∀ s ∈ t, goodFieldName s = true) ∧
      fn = joinSegs (ps ++ fname :: t) := by
    intro fn hfn2
    obtain ⟨t, ht1, ht2, ht3⟩ := hclP fn hfn2
    refine ⟨t, ht1, ht2, ?_⟩
    rw [ht3]
    congr 1
    simp
  simp only [List.cons_append]
  constructor
  · rw [List.nodup_cons]
    constructor
    · intro hmem
      rcases List.mem_append.mp hmem with hh | hh
      · obtain ⟨t, ht1, ht2, ht3⟩ := hclP2 _ hh
        have hinj : fname = fname ∧ ([] : List String) = t :=
          joinSegs_path_inj ps fname fname [] t hpsg hgoodnil
            (hgood1 t ht2) ht3
        exact ht1 hinj.2.symm
      · obtain ⟨g, t, hg1, hg2, hg3⟩ := hrP _ hh
        have hinj : fname = g ∧ ([] : List String) = t :=
          joinSegs_path_inj ps fname g [] t hpsg hgoodnil hg2 hg3
        exact hknotin (hinj.1 ▸ hg1)
    · refine List.Nodup.append hclN hrN ?_
      intro fn hfn1 hfn2
      obtain ⟨t, ht1, ht2, ht3⟩ := hclP2 _ hfn1
      obtain ⟨g, t2, hg1, hg2, hg3⟩ := hrP _ hfn2
      have heq : fname = g ∧ t = t2 :=
        joinSegs_path_inj ps fname g t t2 hpsg (hgood1 t ht2) hg2
          (by rw [← ht3, ← hg3])
      exact hknotin (heq.1 ▸ hg1)
  · intro fn hmem
    rcases List.mem_cons.mp hmem with hh | hh
    · exact ⟨fname, [], List.mem_cons_self _ _, hgoodnil, hh⟩
    · rcases List.mem_append.mp hh with h2 | h2
      · obtain ⟨t, ht1, ht2, ht3⟩ := hclP2 _ h2
        exact ⟨fname, t, List.mem_cons_self _ _, hgood1 t ht2, ht3⟩
      · obtain ⟨g, t, hg1, hg2, hg3⟩ := hrP _ h2
        exact ⟨g, t, List.mem_cons_of_mem _ hg1, hg2, hg3⟩

/-- Full paths emitted by the schema walk: under a well-formed schema every
emitted full path properly extends the calling path by good segments, and
the emitted full paths are pairwise distinct. -/
theorem walkF_fullnames_spec (env : Env) (hw : wfEnv env = true) :
    ∀ n m ps l, (∀ s ∈ ps, goodFieldName s = true) →
      walkF n env m (joinSegs ps) = some l →
      (l.map AttrMeta.fullname).Nodup ∧
      (∀ fn ∈ l.map AttrMeta.fullname, ∃ t, t ≠ [] ∧
        (∀ s ∈ t, goodFieldName s = true) ∧ fn = joinSegs (ps ++ t)) := by
  intro n
  induction n with
  | zero =>
    intro m ps l hps h
    exact absurd h (by simp [walkF])
  | succ n ih =>
    intro m ps l hps h
    rw [walkF] at h
    obtain ⟨hkeysN, hnamesG⟩ := wfEnv_fields hw m
    have hkeysS : ((sortFields (fieldsOf env m)).map Prod.fst).Nodup :=
      ((sortFields_perm (fieldsOf env m)).map Prod.fst).nodup_iff.mpr hkeysN
    have hnamesS : ∀ f ∈ sortFields (fieldsOf env m), goodFieldName f.1 = true :=
      fun f hf => hnamesG f (mem_of_mem_sortFields hf)
    have haux : ∀ fs : List (String × FieldDef),
        (fs.map Prod.fst).Nodup →
        (∀ f ∈ fs, goodFieldName f.1 = true) →
        ∀ l2, walkFields (fun m2 p => walkF n env m2 p) m (joinSegs ps) fs
            = some l2 →
          (l2.map AttrMeta.fullname).Nodup ∧
          (∀ fn ∈ l2.map AttrMeta.fullname, ∃ g t, g ∈ fs.map Prod.fst ∧
            (∀ s ∈ g :: t, goodFieldName s = true) ∧
            fn = joinSegs (ps ++ g :: t)) := by
      intro fs
      induction fs with
      | nil =>
        intro _ _ l2 h2
        rw [walkFields] at h2
        simp only [Option.some.injEq] at h2
        subst h2
        constructor
        · simp
        · intro fn hfn
          simp at hfn
      | cons f rest ihf =>
        intro hnd hgood l2 h2
        obtain ⟨fname, fd⟩ := f
        rw [List.map_cons, List.nodup_cons] at hnd
        have hfg : goodFieldName fname = true := hgood _ (List.mem_cons_self _ _)
        have hgrest : ∀ g ∈ rest, goodFieldName g.1 = true :=
          fun g hg => hgood g (List.mem_cons_of_mem _ hg)
        have hpsf : ∀ s ∈ ps ++ [fname], goodFieldName s = true := by
          intro s hs
          rcases List.mem_append.mp hs with hh | hh
          · exact hps s hh
          · rw [List.mem_singleton.mp hh]
            exact hfg
        have hfj := fullname_join ps fname hps
        have hmeta : (mkMeta m fname (joinSegs ps) fd).fullname
            = joinSegs (ps ++ [fname]) := by
          rw [show (mkMeta m fname (joinSegs ps) fd).fullname
                = (if joinSegs ps = "" then fname
                   else joinSegs ps ++ "__" ++ fname) from rfl, hfj]
        rw [walkFields] at h2
        cases hann : fd.ann with
        | prim p =>
          rw [hann] at h2
          simp at h2
          cases hrl : walkFields (fun m2 p2 => walkF n env m2 p2) m
              (joinSegs ps) rest with
          | none =>
            rw [hrl] at h2
            simp at h2
          | some rl =>
            rw [hrl] at h2
            simp at h2
            subst h2
            obtain ⟨hrN, hrP⟩ := ihf hnd.2 hgrest rl hrl
            have hc := c9_combine ps fname (rest.map Prod.fst) []
              (rl.map AttrMeta.fullname) hps hfg hnd.1 (by simp)
              (by intro fn hfn; exact absurd hfn (List.not_mem_nil fn))
              hrN hrP
            simp only [List.map_cons, List.map_append, List.nil_append] at hc ⊢
            rw [hmeta]
            exact hc
        | modelRef m2 =>
          rw [hann] at h2
          simp at h2
          rw [hfj] at h2
          cases hcl : walkF n env m2 (joinSegs (ps ++ [fname])) with
          | none =>
            rw [hcl] at h2
            simp at h2
          | some cl =>
            rw [hcl] at h2
            simp at h2
            cases hrl : walkFields (fun m2 p2 => walkF n env m2 p2) m
                (joinSegs ps) rest with
            | none =>
              rw [hrl] at h2
              simp at h2
            | some rl =>
              rw [hrl] at h2
              simp at h2
              subst h2
              obtain ⟨hclN, hclP⟩ := ih m2 (ps ++ [fname]) cl hpsf hcl
              obtain ⟨hrN, hrP⟩ := ihf hnd.2 hgrest rl hrl
              have hc := c9_combine ps fname (rest.map Prod.fst)
                (cl.map AttrMeta.fullname) (rl.map AttrMeta.fullname)
                hps hfg hnd.1 hclN hclP hrN hrP
              simp only [List.map_cons, List.map_append, List.cons_append] at hc ⊢
              rw [hmeta]
              exact hc
        | listOf e =>
          cases e with
          | modelRef m2 =>
            by_cases heq : m2 = m
            · rw [hann] at h2
              simp [heq] at h2
              cases hrl : walkFields (fun m2 p2 => walkF n env m2 p2) m
                  (joinSegs ps) rest with
              | none =>
                rw [hrl] at h2
                simp at h2
              | some rl =>
                rw [hrl] at h2
                simp at h2
                subst h2
                obtain ⟨hrN, hrP⟩ := ihf hnd.2 hgrest rl hrl
                have hc := c9_combine ps fname (rest.map Prod.fst) []
                  (rl.map AttrMeta.fullname) hps hfg hnd.1 (by simp)
                  (by intro fn hfn; exact absurd hfn (List.not_mem_nil fn))
                  hrN hrP
                simp only [List.map_cons, List.map_append, List.nil_append] at hc ⊢
                rw [hmeta]
                exact hc
            · rw [hann] at h2
              simp [heq] at h2
              rw [hfj] at h2
              cases hcl : walkF n env m2 (joinSegs (ps ++ [fname])) with
              | none =>
                rw [hcl] at h2
                simp at h2
              | some cl =>
                rw [hcl] at h2
                simp at h2
                cases hrl : walkFields (fun m2 p2 => walkF n env m2 p2) m
                    (joinSegs ps) rest with
                | none =>
                  rw [hrl] at h2
                  simp at h2
                | some rl =>
                  rw [hrl] at h2
                  simp at h2
                  subst h2
                  obtain ⟨hclN, hclP⟩ := ih m2 (ps ++ [fname]) cl hpsf hcl
                  obtain ⟨hrN, hrP⟩ := ihf hnd.2 hgrest rl hrl
                  have hc := c9_combine ps fname (rest.map Prod.fst)
                    (cl.map AttrMeta.fullname) (rl.map AttrMeta.fullname)
                    hps hfg hnd.1 hclN hclP hrN hrP
                  simp only [List.map_cons, List.map_append,
                    List.cons_append] at hc ⊢
                  rw [hmeta]
                  exact hc
          | prim p2 =>
            rw [hann] at h2
            simp at h2
            cases hrl : walkFields (fun m2 p2 => walkF n env m2 p2) m
                (joinSegs ps) rest with
            | none =>
              rw [hrl] at h2
              simp at h2
            | some rl =>
              rw [hrl] at h2
              simp at h2
              subst h2
              obtain ⟨hrN, hrP⟩ := ihf hnd.2 hgrest rl hrl
              have hc := c9_combine ps fname (rest.map Prod.fst) []
                (rl.map AttrMeta.fullname) hps hfg hnd.1 (by simp)
                (by intro fn hfn; exact absurd hfn (List.not_mem_nil fn))
                hrN hrP
              simp only [List.map_cons, List.map_append, List.nil_append] at hc ⊢
              rw [hmeta]
              exact hc
          | listOf e2 =>
            rw [hann] at h2
            simp at h2
            cases hrl : walkFields (fun m2 p2 => walkF n env m2 p2) m
                (joinSegs ps) rest with
            | none =>
              rw [hrl] at h2
              simp at h2
            | some rl =>
              rw [hrl] at h2
              simp at h2
              subst h2
              obtain ⟨hrN, hrP⟩ := ihf hnd.2 hgrest rl hrl
              have hc := c9_combine ps fname (rest.map Prod.fst) []
                (rl.map AttrMeta.fullname) hps hfg hnd.1 (by simp)
                (by intro fn hfn; exact absurd hfn (List.not_mem_nil fn))
                hrN hrP
              simp only [List.map_cons, List.map_append, List.nil_append] at hc ⊢
              rw [hmeta]
              exact hc
    obtain ⟨hN, hP⟩ := haux _ hkeysS hnamesS l h
    refine ⟨hN, ?_⟩
    intro fn hfn
    obtain ⟨g, t, hg1, hg2, hg3⟩ := hP fn hfn
    exact ⟨g :: t, by simp, hg2, hg3⟩

theorem getPath_nondict_ne_nil (v : Value) (hv : isVDict v = false)
    (ps : List String) (hne : ps ≠ []) : getPath v ps = none := by
  cases ps with
  | nil => exact absurd rfl hne
  | cons k rs => exact getPath_nondict v hv k rs

/-- `addParts` with at least one segment left to descend through and an
existing nested dict at the first segment descends into that dict. -/
theorem addParts_cons_dict (t : Entries) (p : String) (d : Entries)
    (ps : List String) (v : Value) (hl : lookupE t p = some (.vDict d))
    (hne : ps ≠ []) :
    addParts t (p :: ps) v = setKey t p (.vDict (addParts d ps v)) := by
  cases ps with
  | nil => exact absurd rfl hne
  | cons q qs => simp [addParts, hl]

/-- After `addParts`, reading back the inserted path yields the stored
value — for every target. -/
theorem getPath_addParts_self (ps : List String) :
    ∀ (t : Entries) (v : Value), ps ≠ [] →
      getPath (.vDict (addParts t ps v)) ps = some v := by
  induction ps with
  | nil => intro t v h; exact absurd rfl h
  | cons p rest ih =>
    intro t v _
    cases rest with
    | nil =>
      rw [show addParts t [p] v = setKey t p v from by simp [addParts]]
      simp [getPath, lookupE_setKey_self]
    | cons q qs =>
      have hstep : ∀ sub : Entries,
          getPath (.vDict (setKey t p (.vDict (addParts sub (q :: qs) v))))
            (p :: q :: qs) = some v := by
        intro sub
        rw [getPath, lookupE_setKey_self]
        exact ih sub v (by simp)
      cases hl : lookupE t p with
      | some w =>
        cases w with
        | vDict d =>
          rw [show addParts t (p :: q :: qs) v
                = setKey t p (.vDict (addParts d (q :: qs) v)) from by
            simp [addParts, hl]]
          exact hstep d
        | vStr a =>
          rw [show addParts t (p :: q :: qs) v
                = setKey t p (.vDict (addParts [] (q :: qs) v)) from by
            simp [addParts, hl]]
          exact hstep []
        | vInt a =>
          rw [show addParts t (p :: q :: qs) v
                = setKey t p (.vDict (addParts [] (q :: qs) v)) from by
            simp [addParts, hl]]
          exact hstep []
        | vBool a =>
          rw [show addParts t (p :: q :: qs) v
                = setKey t p (.vDict (addParts [] (q :: qs) v)) from by
            simp [addParts, hl]]
          exact hstep []
      | none =>
        rw [show addParts t (p :: q :: qs) v
              = setKey t p (.vDict (addParts [] (q :: qs) v)) from by
          simp [addParts, hl]]
        exact hstep []

/-- `addParts` along a path sharing the prefix but ending in a DIFFERENT
terminal segment preserves any entry the target already held at the old
path: the function descends into the existing nested dicts without
replacing them. -/
theorem getPath_addParts_other (ps : List String) :
    ∀ (t : Entries) (s1 s2 : String) (w v2 : Value), s1 ≠ s2 →
      getPath (.vDict t) (ps ++ [s1]) = some w →
      getPath (.vDict (addParts t (ps ++ [s2]) v2)) (ps ++ [s1]) = some w := by
  induction ps with
  | nil =>
    intro t s1 s2 w v2 hne h
    simp only [List.nil_append] at h ⊢
    rw [show addParts t [s2] v2 = setKey t s2 v2 from by simp [addParts]]
    rw [getPath] at h
    rw [getPath.eq_2, lookupE_setKey_other t s1 s2 v2 hne]
    exact h
  | cons p rest ih =>
    intro t s1 s2 w v2 hne h
    simp only [List.cons_append] at h ⊢
    rw [getPath] at h
    cases hl : lookupE t p with
    | none =>
      rw [hl] at h
      simp at h
    | some u =>
      rw [hl] at h
      have h2 : getPath u (rest ++ [s1]) = some w := h
      cases u with
      | vDict d =>
        rw [addParts_cons_dict t p d (rest ++ [s2]) v2 hl (by simp)]
        rw [getPath.eq_2, lookupE_setKey_self]
        exact ih d s1 s2 w v2 hne h2
      | vStr a =>
        rw [getPath_nondict_ne_nil (Value.vStr a) rfl (rest ++ [s1]) (by simp)] at h2
        exact absurd h2 (by simp)
      | vInt a =>
        rw [getPath_nondict_ne_nil (Value.vInt a) rfl (rest ++ [s1]) (by simp)] at h2
        exact absurd h2 (by simp)
      | vBool a =>
        rw [getPath_nondict_ne_nil (Value.vBool a) rfl (rest ++ [s1]) (by simp)] at h2
        exact absurd h2 (by simp)

/-- A successful read at `P ++ [s]` factors through a nested dict at `P`
holding the result at key `s`. -/
theorem getPath_append_one (P : List String) :
    ∀ (v u : Value) (s : String), getPath v (P ++ [s]) = some u →
      ∃ d, getPath v P = some (.vDict d) ∧ lookupE d s = some u := by
  induction P with
  | nil =>
    intro v u s h
    rw [List.nil_append] at h
    cases v with
    | vDict es =>
      rw [getPath] at h
      cases hl : lookupE es s with
      | none =>
        rw [hl] at h
        simp at h
      | some w =>
        rw [hl] at h
        have h2 : getPath w [] = some u := h
        rw [getPath] at h2
        injection h2 with h2
        exact ⟨es, rfl, by rw [hl, h2]⟩
    | vStr a =>
      rw [getPath_nondict (Value.vStr a) rfl s []] at h
      exact absurd h (by simp)
    | vInt a =>
      rw [getPath_nondict (Value.vInt a) rfl s []] at h
      exact absurd h (by simp)
    | vBool a =>
      rw [getPath_nondict (Value.vBool a) rfl s []] at h
      exact absurd h (by simp)
  | cons k rest ih =>
    intro v u s h
    rw [List.cons_append] at h
    cases v with
    | vDict es =>
      rw [getPath] at h
      cases hl : lookupE es k with
      | none =>
        rw [hl] at h
        simp at h
      | some w =>
        rw [hl] at h
        have h2 : getPath w (rest ++ [s]) = some u := h
        obtain ⟨d, hd1, hd2⟩ := ih w u s h2
        refine ⟨d, ?_, hd2⟩
        rw [getPath, hl]
        exact hd1
    | vStr a =>
      rw [getPath_nondict (Value.vStr a) rfl k (rest ++ [s])] at h
      exact absurd h (by simp)
    | vInt a =>
      rw [getPath_nondict (Value.vInt a) rfl k (rest ++ [s])] at h
      exact absurd h (by simp)
    | vBool a =>
      rw [getPath_nondict (Value.vBool a) rfl k (rest ++ [s])] at h
      exact absurd h (by simp)

/-- C10: for EVERY target mapping, shared intermediate prefix and pair of
flat keys differing only in their terminal segment,
`_add_fullname_as_nested_dict` descends into an existing nested mapping
without replacing it: inserting the second key preserves any value the
target already held under the shared prefix, and after inserting both keys
they sit as sibling entries of the same nested mapping, both retained. -/
theorem c10_sibling_keys_retained (t : Entries) (k1 k2 : String)
    (P : List String) (s1 s2 : String) (v1 v2 : Value)
    (h1 : splitFullname k1 = P ++ [s1])
    (h2 : splitFullname k2 = P ++ [s2])
    (hne : s1 ≠ s2) :
    (∃ d, getPath (.vDict (addFullnameAsNestedDict
            (addFullnameAsNestedDict t k1 v1) k2 v2)) P = some (.vDict d) ∧
          lookupE d s1 = some v1 ∧ lookupE d s2 = some v2) ∧
    (∀ w, getPath (.vDict t) (P ++ [s1]) = some w →
          getPath (.vDict (addFullnameAsNestedDict t k2 v2)) (P ++ [s1])
            = some w) := by
  simp only [addFullnameAsNestedDict, h1, h2]
  constructor
  · have a1 : getPath (.vDict (addParts t (P ++ [s1]) v1)) (P ++ [s1])
        = some v1 := getPath_addParts_self (P ++ [s1]) t v1 (by simp)
    have a2 : getPath (.vDict (addParts (addParts t (P ++ [s1]) v1)
          (P ++ [s2]) v2)) (P ++ [s1]) = some v1 :=
      getPath_addParts_other P _ s1 s2 v1 v2 hne a1
    have a3 : getPath (.vDict (addParts (addParts t (P ++ [s1]) v1)
          (P ++ [s2]) v2)) (P ++ [s2]) = some v2 :=
      getPath_addParts_self (P ++ [s2]) _ v2 (by simp)
    obtain ⟨d1, hd1, hl1⟩ := getPath_append_one P _ v1 s1 a2
    obtain ⟨d2, hd2, hl2⟩ := getPath_append_one P _ v2 s2 a3
    rw [hd1] at hd2
    injection hd2 with hd
    injection hd with hd
    exact ⟨d1, hd1, hl1, by rw [hd]; exact hl2⟩
  · intro w hw
    exact getPath_addParts_other P t s1 s2 w v2 hne hw

theorem c10_sibling_keys_retained_witness :
    splitFullname "user__username" = ["user"] ++ ["username"] ∧
    splitFullname "user__password" = ["user"] ++ ["password"] ∧
    ("username" : String) ≠ "password" ∧
    ((∃ d, getPath (.vDict (addFullnameAsNestedDict
            (addFullnameAsNestedDict
              [("user", Value.vDict [("theme", Value.vStr "dark")])]
              "user__username" (Value.vStr "alice"))
            "user__password" (Value.vStr "s3cret"))) ["user"]
          = some (.vDict d) ∧
        lookupE d "username" = some (Value.vStr "alice") ∧
        lookupE d "password" = some (Value.vStr "s3cret")) ∧
      (∀ w, getPath
          (.vDict [("user", Value.vDict [("theme", Value.vStr "dark")])])
          (["user"] ++ ["username"]) = some w →
        getPath (.vDict (addFullnameAsNestedDict
            [("user", Value.vDict [("theme", Value.vStr "dark")])]
            "user__password" (Value.vStr "s3cret")))
          (["user"] ++ ["username"]) = some w)) :=
  ⟨rfl, rfl, by decide,
    c10_sibling_keys_retained
      [("user", Value.vDict [("theme", Value.vStr "dark")])]
      "user__username" "user__password" ["user"] "username" "password"
      (Value.vStr "alice") (Value.vStr "s3cret") rfl rfl (by decide)⟩

/-- C9 (corrected): under a well-formed schema — each model's field names
pairwise distinct, every name non-empty, free of the separator `"__"` and
not ending in `'_'` — every catalogue `_get_attr_metadata` returns lists
pairwise-distinct full paths.  Sibling fields are always visited in
Python's sorted-name order (`sortFields` is a sorted permutation of the
declared fields), and the walk is depth-first in place: one step unfolds
to `walkFields` over the sorted fields, splicing each nested model's
catalogue where its field occurs.  Without the well-formedness condition
uniqueness fails: see the `a__b` collision counterexample. -/
theorem c9_fullpaths_unique (env : Env) (n : Nat) (root : String)
    (l : List AttrMeta) (hw : wfEnv env = true)
    (h : walkF n env root "" = some l) :
    (l.map AttrMeta.fullname).Nodup ∧
    (∀ fs : List (String × FieldDef), (sortFields fs).Perm fs ∧
      List.Pairwise (fun a b => pyStrLe a.1 b.1 = true) (sortFields fs)) ∧
    (∀ k m path, walkF (k + 1) env m path
      = walkFields (fun m2 p => walkF k env m2 p) m path
          (sortFields (fieldsOf env m))) := by
  refine ⟨?_, fun fs => ⟨sortFields_perm fs, sortFields_sorted fs⟩,
    fun k m path => rfl⟩
  exact (walkF_fullnames_spec env hw n root [] l
    (fun s hs => absurd hs (List.not_mem_nil s)) h).1

theorem c9_fullpaths_unique_witness :
    wfEnv envApp = true ∧ walkF 2 envApp "App" "" = some c9CatApp ∧
    (c9CatApp.map AttrMeta.fullname).Nodup :=
  ⟨rfl, rfl, (c9_fullpaths_unique envApp 2 "App" c9CatApp rfl rfl).1⟩

end TSC
